import Mathlib

/-!
Verification of the EnvChanter reconciliation and transfer engine
(`main.go`).  Go strings are modelled as `List Char` (Go compares and
slices strings bytewise, but every comparison made by this program is
either a whole-character comparison or a comparison against an ASCII
character, and UTF-8 byte order agrees with code-point order, so the
character-list model is faithful).  File and network effects are made
explicit: functions receive file contents as values and return the
remote calls / file writes they would perform.
-/

abbrev GoStr := List Char

/-- Model of Go `unicode.IsSpace` (the predicate used by `strings.TrimSpace`):
space, tab, newline, vertical tab, form feed, carriage return, NEL, NBSP and
the Unicode `White_Space` code points. -/
def goIsSpace (c : Char) : Bool :=
  c = ' ' || c = '\t' || c = '\n' || c = '\x0b' || c = '\x0c' || c = '\r' ||
  c = Char.ofNat 0x85 || c = Char.ofNat 0xA0 || c = Char.ofNat 0x1680 ||
  (Char.ofNat 0x2000 ≤ c && c ≤ Char.ofNat 0x200A) || c = Char.ofNat 0x2028 ||
  c = Char.ofNat 0x2029 || c = Char.ofNat 0x202F || c = Char.ofNat 0x205F ||
  c = Char.ofNat 0x3000

/-- Model of Go `strings.TrimSpace`. -/
def trimSpace (s : GoStr) : GoStr :=
  ((s.dropWhile goIsSpace).reverse.dropWhile goIsSpace).reverse

/-- Model of Go `strings.Split(s, "\n")`: splitting the empty string yields
one empty piece, and a trailing newline yields a trailing empty piece. -/
def splitOnNl : GoStr → List GoStr
  | [] => [[]]
  | c :: rest =>
    if c = '\n' then [] :: splitOnNl rest
    else
      match splitOnNl rest with
      | [] => [[c]]
      | l :: ls => (c :: l) :: ls

/-- Model of Go `strings.SplitN(line, "=", 2)`: `none` when the line has no
`=` (Go returns a 1-element slice there), otherwise the text before the
first `=` and the text after it. -/
def splitEq : GoStr → Option (GoStr × GoStr)
  | [] => none
  | c :: rest =>
    if c = '=' then some ([], rest)
    else (splitEq rest).map (fun p => (c :: p.1, p.2))

/-- Model of Go `strings.ReplaceAll(s, pat, rep)`: scan left to right,
replacing non-overlapping occurrences of `pat` by `rep`. -/
def replaceAll (pat rep : GoStr) : GoStr → GoStr
  | [] => []
  | c :: rest =>
    if h : pat ≠ [] ∧ pat.IsPrefix (c :: rest) then
      rep ++ replaceAll pat rep ((c :: rest).drop pat.length)
    else
      c :: replaceAll pat rep rest
termination_by s => s.length
decreasing_by
  · simp only [List.length_drop, List.length_cons]
    have : 1 ≤ pat.length := List.length_pos.mpr h.1
    omega
  · simp

/-- `needsQuoting` from main.go: `strings.ContainsAny(value, " \t\n\r\"'\\")`. -/
def needsQuoting (value : GoStr) : Bool :=
  value.any (fun c =>
    c = ' ' || c = '\t' || c = '\n' || c = '\r' || c = '"' || c = '\'' || c = '\\')

/-- `escapeValue` from main.go: the five `strings.ReplaceAll` steps, in source
order (backslash first, then quote, newline, carriage return, tab). -/
def escapeValue (value : GoStr) : GoStr :=
  let v1 := replaceAll ['\\'] ['\\', '\\'] value
  let v2 := replaceAll ['"'] ['\\', '"'] v1
  let v3 := replaceAll ['\n'] ['\\', 'n'] v2
  let v4 := replaceAll ['\r'] ['\\', 'r'] v3
  replaceAll ['\t'] ['\\', 't'] v4

/-- The unescape chain of `readEnvFile` in main.go, applied after quote
stripping: `\\` first, then `\"`, `\n`, `\r`, `\t`. -/
def unescapeValue (value : GoStr) : GoStr :=
  let v1 := replaceAll ['\\', '\\'] ['\\'] value
  let v2 := replaceAll ['\\', '"'] ['"'] v1
  let v3 := replaceAll ['\\', 'n'] ['\n'] v2
  let v4 := replaceAll ['\\', 'r'] ['\r'] v3
  replaceAll ['\\', 't'] ['\t'] v4

/-- Quote handling of `readEnvFile` in main.go: if the (already trimmed)
value is at least two characters long and wrapped in a matching pair of
double or single quotes, strip the wrapping quotes and unescape. -/
def unquoteValue (value : GoStr) : GoStr :=
  if value.length ≥ 2 &&
      ((value.head? = some '"' && value.getLast? = some '"') ||
        (value.head? = some '\'' && value.getLast? = some '\'')) then
    unescapeValue ((value.drop 1).dropLast)
  else value

/-- Read access `m[k]` of a Go `map[string]string`, on the association-list
model (at most one binding per key is ever stored). -/
def mapLookup (m : List (GoStr × GoStr)) (k : GoStr) : Option GoStr :=
  match m with
  | [] => none
  | p :: rest => if p.1 = k then some p.2 else mapLookup rest k

/-- Read access `m[k]` with Go zero-value default (empty string). -/
def mapLookupD (m : List (GoStr × GoStr)) (k : GoStr) : GoStr :=
  (mapLookup m k).getD []

/-- Write access `m[k] = v` of a Go `map[string]string`: replace the existing
binding or add a new one. -/
def upsert (m : List (GoStr × GoStr)) (k v : GoStr) : List (GoStr × GoStr) :=
  match m with
  | [] => [(k, v)]
  | p :: rest => if p.1 = k then (k, v) :: rest else p :: upsert rest k v

/-- One iteration of the line loop of `readEnvFile` in main.go: trim, skip
blanks and `#` comments, split at the first `=` (no `=` is the error case,
reported with the 1-based line number and the trimmed line), trim key and
value, unquote, store. -/
def processLine (envVars : List (GoStr × GoStr)) (idx : Nat) (rawLine : GoStr) :
    Except (Nat × GoStr) (List (GoStr × GoStr)) :=
  if trimSpace rawLine = [] || (trimSpace rawLine).head? = some '#' then .ok envVars
  else
    match splitEq (trimSpace rawLine) with
    | none => .error (idx + 1, trimSpace rawLine)
    | some (k, rest) => .ok (upsert envVars (trimSpace k) (unquoteValue (trimSpace rest)))

/-- The line loop of `readEnvFile`, threading the map being built and the
0-based line index. -/
def parseLinesAux (envVars : List (GoStr × GoStr)) (idx : Nat) :
    List GoStr → Except (Nat × GoStr) (List (GoStr × GoStr))
  | [] => .ok envVars
  | l :: ls =>
    match processLine envVars idx l with
    | .error e => .error e
    | .ok m => parseLinesAux m (idx + 1) ls

/-- `readEnvFile` from main.go, on the file's text (file I/O and the path
check are external to the parsing logic). -/
def readEnvFile (text : GoStr) : Except (Nat × GoStr) (List (GoStr × GoStr)) :=
  parseLinesAux [] 0 (splitOnNl text)

/-- The binding contributed by one env-file line, if any: `none` for blank
lines and comment lines (and for the no-`=` case, which aborts parsing
instead of binding).  This is one iteration of the `readEnvFile` loop:
trimmed key before the first `=`, trimmed and unquoted value after it. -/
def lineBinding (l : GoStr) : Option (GoStr × GoStr) :=
  if trimSpace l = [] || (trimSpace l).head? = some '#' then none
  else
    match splitEq (trimSpace l) with
    | none => none
    | some (k, rest) => some (trimSpace k, unquoteValue (trimSpace rest))

/-- The value bound by the last entry (in list order) whose key is `key`,
if any: the file-order winner among duplicate bindings. -/
def lastBinding (key : GoStr) : List (GoStr × GoStr) → Option GoStr
  | [] => none
  | p :: rest =>
    match lastBinding key rest with
    | some v => some v
    | none => if p.1 = key then some p.2 else none

/-- Bytewise-lexicographic string order used by Go `sort.Strings`
(UTF-8 byte order agrees with code-point order). -/
def lexLe : GoStr → GoStr → Bool
  | [], _ => true
  | _ :: _, [] => false
  | a :: s, b :: t => if a < b then true else if b < a then false else lexLe s t

/-- Strict version of `lexLe`. -/
def lexLt : GoStr → GoStr → Bool
  | [], [] => false
  | [], _ :: _ => true
  | _ :: _, [] => false
  | a :: s, b :: t => if a < b then true else if b < a then false else lexLt s t

/-- Insert into a `lexLe`-sorted list, keeping it sorted. -/
def insertSorted (x : GoStr) : List GoStr → List GoStr
  | [] => [x]
  | y :: rest => if lexLe x y then x :: y :: rest else y :: insertSorted x rest

/-- Model of Go `sort.Strings` (any correct sort; insertion sort here). -/
def sortStrings (l : List GoStr) : List GoStr :=
  l.foldr insertSorted []

/-- `writeEnvFile` from main.go, producing the file content: sort the keys,
then emit `KEY=VALUE\n` per key, quoting and escaping the value when
`alwaysQuote` is set or when it needs quoting.  (The 0600 permission bits of
the `os.OpenFile` call are modelled separately by `writeEnvFileEffect`.) -/
def writeEnvFile (envVars : List (GoStr × GoStr)) (alwaysQuote : Bool) : GoStr :=
  let keys := sortStrings (envVars.map Prod.fst)
  (keys.map (fun key =>
    let value := mapLookupD envVars key
    let value :=
      if alwaysQuote then '"' :: escapeValue value ++ ['"']
      else if needsQuoting value then '"' :: escapeValue value ++ ['"']
      else value
    key ++ '=' :: value ++ ['\n'])).flatten

/-- A Go `map[string]string` literal, as loaded from the JSON mapping file. -/
abbrev ParameterMap := List (GoStr × GoStr)

/-- The per-character test of `validateEnvVarName` in main.go:
alphanumeric or underscore. -/
def isEnvChar (c : Char) : Bool :=
  ('A' ≤ c && c ≤ 'Z') || ('a' ≤ c && c ≤ 'z') || ('0' ≤ c && c ≤ '9') || c = '_'

/-- `validateEnvVarName` from main.go: non-empty, first character not a
digit, every character alphanumeric or underscore.  `true` means the Go
function returns nil. -/
def validateEnvVarName (name : GoStr) : Bool :=
  match name with
  | [] => false
  | c :: rest => !('0' ≤ c && c ≤ '9') && isEnvChar c && rest.all isEnvChar

/-- The per-character test of `validateSSMPath` in main.go: alphanumeric,
`-`, `_`, `.` or `/`. -/
def isSSMPathChar (c : Char) : Bool :=
  ('A' ≤ c && c ≤ 'Z') || ('a' ≤ c && c ≤ 'z') || ('0' ≤ c && c ≤ '9') ||
  c = '-' || c = '_' || c = '.' || c = '/'

/-- Go `len(s)` counts UTF-8 bytes, not characters. -/
def goLen (s : GoStr) : Nat :=
  (s.map Char.utf8Size).sum

/-- Go `strings.Contains(s, "..")`. -/
def containsDotDot : GoStr → Bool
  | [] => false
  | [_] => false
  | a :: b :: rest => (a = '.' && b = '.') || containsDotDot (b :: rest)

/-- `validateSSMPath` from main.go: non-empty, starts with `/`, characters
from `isSSMPathChar`, no `..` substring (path-traversal check), at most
2048 bytes.  `true` means the Go function returns nil. -/
def validateSSMPath (path : GoStr) : Bool :=
  !path.isEmpty &&
  path.head? = some '/' &&
  path.all isSSMPathChar &&
  !(containsDotDot path) &&
  goLen path ≤ 2048

/-- The per-character test of `validateAzureSecretName` in main.go:
alphanumeric or hyphen. -/
def isAzureNameChar (c : Char) : Bool :=
  ('A' ≤ c && c ≤ 'Z') || ('a' ≤ c && c ≤ 'z') || ('0' ≤ c && c ≤ '9') || c = '-'

/-- `validateAzureSecretName` from main.go: non-empty, at most 127 bytes,
every character alphanumeric or hyphen.  `true` means nil. -/
def validateAzureSecretName (name : GoStr) : Bool :=
  !name.isEmpty && goLen name ≤ 127 && name.all isAzureNameChar

/-- `validateParameterMap` from main.go: non-empty and each entry has a
valid env-var name and a valid SSM path. -/
def validateParameterMap (paramMap : ParameterMap) : Bool :=
  !paramMap.isEmpty &&
  paramMap.all (fun p => validateEnvVarName p.1 && validateSSMPath p.2)

/-- `validateAzureParameterMap` from main.go. -/
def validateAzureParameterMap (paramMap : ParameterMap) : Bool :=
  !paramMap.isEmpty &&
  paramMap.all (fun p => validateEnvVarName p.1 && validateAzureSecretName p.2)

/-- `loadParameterMapRaw` from main.go, on the mapping file's JSON parse
result (`none` models an unreadable file or malformed JSON; file I/O and
`json.Unmarshal` are external collaborators). -/
def loadParameterMapRaw (raw : Option ParameterMap) : Except GoStr ParameterMap :=
  match raw with
  | none => .error ("failed to parse JSON".data)
  | some pm => .ok pm

/-- `loadParameterMap` from main.go: raw load, then AWS SSM validation. -/
def loadParameterMap (raw : Option ParameterMap) : Except GoStr ParameterMap :=
  match loadParameterMapRaw raw with
  | .error e => .error e
  | .ok pm =>
    if validateParameterMap pm then .ok pm
    else .error ("invalid parameter map".data)

/-- The mapping-load performed by `main` before an operation runs: AWS modes
use `loadParameterMap`; Azure modes use `loadParameterMapRaw` followed by
`validateAzureParameterMap`. -/
def loadPM (raw : Option ParameterMap) (azure : Bool) : Except GoStr ParameterMap :=
  if azure then
    match loadParameterMapRaw raw with
    | .error e => .error e
    | .ok pm =>
      if validateAzureParameterMap pm then .ok pm
      else .error ("invalid parameter map".data)
  else loadParameterMap raw

/-- The `Difference` struct from main.go. -/
structure Difference where
  Key : GoStr
  LocalVal : GoStr
  SSMVal : GoStr
  SSMPath : GoStr
  ExistsSSM : Bool
deriving DecidableEq

/-- The comparison step of `syncParameters` in main.go for one mapping entry
`p = (envKey, ssmPath)`: produce the difference record, if any. -/
def diffFor (localEnvVars ssmEnvVars : List (GoStr × GoStr)) (p : GoStr × GoStr) :
    Option Difference :=
  match mapLookup localEnvVars p.1, mapLookup ssmEnvVars p.1 with
  | none, some ssmVal => some ⟨p.1, [], ssmVal, p.2, true⟩
  | none, none => none
  | some _, none => none
  | some localVal, some ssmVal =>
    if localVal ≠ ssmVal then some ⟨p.1, localVal, ssmVal, p.2, true⟩ else none

/-- The difference-collection loop of `syncParameters` in main.go. -/
def computeDifferences (paramMap : ParameterMap)
    (localEnvVars ssmEnvVars : List (GoStr × GoStr)) : List Difference :=
  paramMap.filterMap (diffFor localEnvVars ssmEnvVars)

/-- Insert into a list of differences sorted by key. -/
def insertDiffSorted (d : Difference) : List Difference → List Difference
  | [] => [d]
  | e :: rest => if lexLe d.Key e.Key then d :: e :: rest else e :: insertDiffSorted d rest

/-- The `sort.Slice(differences, Key <)` step of `syncParameters`. -/
def sortDifferences (l : List Difference) : List Difference :=
  l.foldr insertDiffSorted []

/-- Go `strings.ToLower`; only ASCII matters here, since the result is
compared against ASCII words. -/
def goToLower (s : GoStr) : GoStr :=
  s.map Char.toLower

/-- The prompt loop of `promptForUpdates` in main.go.  `inputs` is the
sequence of terminal lines read by `fmt.Scanln`; `none` models the process
still blocking on input when the script runs out.  A response is trimmed and
lowercased; `y`/`yes` accepts the current difference, `n`/`no` skips it,
`a`/`all` returns the accepted ones plus the current and all remaining,
`c`/`cancel` returns only the ones accepted so far, anything else
re-prompts the same difference. -/
def promptLoop (toUpdate : List Difference) :
    List Difference → List GoStr → Option (List Difference)
  | [], _ => some toUpdate
  | _ :: _, [] => none
  | d :: rest, inp :: inps =>
    let response := goToLower (trimSpace inp)
    if response = ['y'] || response = ('y' :: ['e', 's']) then
      promptLoop (toUpdate ++ [d]) rest inps
    else if response = ['n'] || response = ('n' :: ['o']) then
      promptLoop toUpdate rest inps
    else if response = ['a'] || response = ('a' :: ['l', 'l']) then
      some (toUpdate ++ d :: rest)
    else if response = ['c'] || response = ('c' :: ['a', 'n', 'c', 'e', 'l']) then
      some toUpdate
    else
      promptLoop toUpdate (d :: rest) inps
termination_by diffs inputs => inputs.length
decreasing_by
  · simp
  · simp
  · simp

/-- `promptForUpdates` from main.go. -/
def promptForUpdates (differences : List Difference) (inputs : List GoStr) :
    Option (List Difference) :=
  promptLoop [] differences inputs

/-- A call made to the remote store adapter. -/
inductive RemoteCall where
  | get : GoStr → RemoteCall
  | put : GoStr → GoStr → RemoteCall
deriving DecidableEq

/-- `fetchParameters` / `fetchParametersFromAzure` from main.go, given the
remote store's contents (`none` is the NotFound case, which is skipped with
a warning).  Builds the remote snapshot keyed by env-var name. -/
def fetchParameters (remote : GoStr → Option GoStr) (paramMap : ParameterMap) :
    List (GoStr × GoStr) :=
  paramMap.foldl (fun envVars p =>
    match remote p.2 with
    | some v => upsert envVars p.1 v
    | none => envVars) []

/-- `pushParameters` / `pushParametersToAzure` from main.go: the sequence of
store calls issued.  Mapping entries whose env-var name is missing from the
local snapshot are skipped. -/
def pushParameters (envVars : List (GoStr × GoStr)) (paramMap : ParameterMap) :
    List RemoteCall :=
  paramMap.filterMap (fun p =>
    (mapLookup envVars p.1).map (fun v => RemoteCall.put p.2 v))

/-- A local file write, with the permission bits passed to `os.OpenFile`. -/
structure FileWrite where
  perm : Nat
  content : GoStr
deriving DecidableEq

/-- The effect of `writeEnvFile` in main.go: `os.OpenFile(filename,
O_CREATE|O_WRONLY|O_TRUNC, 0600)` followed by the serialized content. -/
def writeEnvFileEffect (envVars : List (GoStr × GoStr)) (alwaysQuote : Bool) :
    FileWrite :=
  ⟨0o600, writeEnvFile envVars alwaysQuote⟩

/-- Result of one run of `syncParameters` in main.go. -/
inductive SyncOutcome where
  | inSync
  | noneSelected
  | promptExhausted
  | wrote (w : FileWrite) (count : Nat)
deriving DecidableEq

/-- The file write performed by a sync outcome, if any. -/
def syncWrite : SyncOutcome → Option FileWrite
  | .wrote w _ => some w
  | _ => none

/-- `syncParameters` / `syncParametersWithAzure` from main.go: fetch the
remote snapshot, collect differences, report in-sync when there are none,
otherwise sort them, select a subset (all of them under `force`, else by
prompting), and if any were selected merge them into the local snapshot and
rewrite the whole env file. -/
def syncParameters (localEnvVars : List (GoStr × GoStr)) (paramMap : ParameterMap)
    (remote : GoStr → Option GoStr) (force quotes : Bool) (inputs : List GoStr) :
    SyncOutcome :=
  let ssmEnvVars := fetchParameters remote paramMap
  let differences := computeDifferences paramMap localEnvVars ssmEnvVars
  if differences.isEmpty then .inSync
  else
    let sorted := sortDifferences differences
    match if force then some sorted else promptForUpdates sorted inputs with
    | none => .promptExhausted
    | some toUpdate =>
      if toUpdate.isEmpty then .noneSelected
      else
        let updated := toUpdate.foldl (fun m d => upsert m d.Key d.SSMVal) localEnvVars
        .wrote (writeEnvFileEffect updated quotes) toUpdate.length

/-- Pull mode of `main`: load and validate the mapping, then fetch every
mapped identifier and write the env file.  Returns the remote calls issued
and the file write performed, if any. -/
def pullMode (raw : Option ParameterMap) (azure : Bool)
    (remote : GoStr → Option GoStr) (quotes : Bool) :
    List RemoteCall × Option FileWrite :=
  match loadPM raw azure with
  | .error _ => ([], none)
  | .ok pm =>
    (pm.map (fun p => RemoteCall.get p.2),
      some (writeEnvFileEffect (fetchParameters remote pm) quotes))

/-- File-based push mode of `main`: load and validate the mapping, read the
local env file, then push.  Returns the remote calls issued and whether the
operation ran. -/
def pushMode (raw : Option ParameterMap) (azure : Bool) (envText : GoStr) :
    List RemoteCall × Bool :=
  match loadPM raw azure with
  | .error _ => ([], false)
  | .ok pm =>
    match readEnvFile envText with
    | .error _ => ([], false)
    | .ok envVars => (pushParameters envVars pm, true)

/-- Sync mode of `main`: load and validate the mapping, read the local env
file, then run `syncParameters`.  Returns the remote calls issued (the
fetches of `syncParameters`) and the outcome. -/
def syncMode (raw : Option ParameterMap) (azure : Bool) (envText : GoStr)
    (remote : GoStr → Option GoStr) (force quotes : Bool) (inputs : List GoStr) :
    List RemoteCall × Option SyncOutcome :=
  match loadPM raw azure with
  | .error _ => ([], none)
  | .ok pm =>
    match readEnvFile envText with
    | .error _ => ([], none)
    | .ok localEnvVars =>
      (pm.map (fun p => RemoteCall.get p.2),
        some (syncParameters localEnvVars pm remote force quotes inputs))

/-- Modelled from the spec: the regular expression
`^[A-Za-z_][A-Za-z0-9_]*$` for local variable names. -/
def specEnvVarNameOk (s : GoStr) : Bool :=
  match s with
  | [] => false
  | c :: rest =>
    (('A' ≤ c && c ≤ 'Z') || ('a' ≤ c && c ≤ 'z') || c = '_') &&
    rest.all (fun d =>
      ('A' ≤ d && d ≤ 'Z') || ('a' ≤ d && d ≤ 'z') || ('0' ≤ d && d ≤ '9') || d = '_')

/-- Modelled from the spec: path-style identifiers start with `/`, use only
characters in `[A-Za-z0-9/_.-]`, and have length at most 2048. -/
def specSSMPathOk (s : GoStr) : Bool :=
  s.head? = some '/' &&
  s.all (fun c =>
    ('A' ≤ c && c ≤ 'Z') || ('a' ≤ c && c ≤ 'z') || ('0' ≤ c && c ≤ '9') ||
    c = '/' || c = '_' || c = '.' || c = '-') &&
  s.length ≤ 2048

/-- Modelled from the spec: name-style identifiers are 1 to 127 characters,
all in `[A-Za-z0-9-]`. -/
def specAzureSecretNameOk (s : GoStr) : Bool :=
  1 ≤ s.length && s.length ≤ 127 &&
  s.all (fun c =>
    ('A' ≤ c && c ≤ 'Z') || ('a' ≤ c && c ≤ 'z') || ('0' ≤ c && c ≤ '9') || c = '-')

/-- A value string that the env-file codec passes through verbatim: no
surrounding whitespace (so trimming keeps it) and not wrapped in a matching
pair of quotes (so no unescaping happens). -/
def plainValue (v : GoStr) : Bool :=
  (match v.head? with | none => true | some c => !goIsSpace c) &&
  (match v.getLast? with | none => true | some c => !goIsSpace c) &&
  !(v.length ≥ 2 &&
    ((v.head? = some '"' && v.getLast? = some '"') ||
      (v.head? = some '\'' && v.getLast? = some '\'')))

/-- The per-character expansion performed by `escapeValue`: special
characters become backslash escapes, everything else is kept. -/
def escChar (c : Char) : GoStr :=
  if c = '\\' then ['\\', '\\']
  else if c = '"' then ['\\', '"']
  else if c = '\n' then ['\\', 'n']
  else if c = '\r' then ['\\', 'r']
  else if c = '\t' then ['\\', 't']
  else [c]

/-- Character-wise expansion of a string by `f`. -/
def expandWith (f : Char → GoStr) : GoStr → GoStr
  | [] => []
  | c :: rest => f c ++ expandWith f rest

/-- A value is free of the ambiguous backslash-letter sequences: no literal
backslash immediately followed by `n`, `r` or `t`.  On such values the
eager unescape chain of the codec inverts `escapeValue`. -/
def noBadEscape : GoStr → Bool
  | [] => true
  | [_] => true
  | c :: d :: rest =>
    !(c = '\\' && (d = 'n' || d = 'r' || d = 't')) && noBadEscape (d :: rest)

/-- Stage functions describing the cumulative effect of the escape chain of
`escapeValue`: after replacing backslashes. -/
def escChar1 (c : Char) : GoStr :=
  if c = '\\' then ['\\', '\\'] else [c]

/-- After replacing backslashes and double quotes. -/
def escChar2 (c : Char) : GoStr :=
  if c = '\\' then ['\\', '\\'] else if c = '"' then ['\\', '"'] else [c]

/-- After replacing backslashes, quotes and newlines. -/
def escChar3 (c : Char) : GoStr :=
  if c = '\\' then ['\\', '\\'] else if c = '"' then ['\\', '"']
  else if c = '\n' then ['\\', 'n'] else [c]

/-- After replacing backslashes, quotes, newlines and carriage returns. -/
def escChar4 (c : Char) : GoStr :=
  if c = '\\' then ['\\', '\\'] else if c = '"' then ['\\', '"']
  else if c = '\n' then ['\\', 'n'] else if c = '\r' then ['\\', 'r'] else [c]

/-- Stage functions for the unescape chain applied to an escaped value:
after undoing `\\`. -/
def unChar1 (c : Char) : GoStr :=
  if c = '\\' then ['\\'] else if c = '"' then ['\\', '"']
  else if c = '\n' then ['\\', 'n'] else if c = '\r' then ['\\', 'r']
  else if c = '\t' then ['\\', 't'] else [c]

/-- After undoing `\\` and `\"`. -/
def unChar2 (c : Char) : GoStr :=
  if c = '\\' then ['\\'] else if c = '"' then ['"']
  else if c = '\n' then ['\\', 'n'] else if c = '\r' then ['\\', 'r']
  else if c = '\t' then ['\\', 't'] else [c]

/-- After undoing `\\`, `\"` and `\n`. -/
def unChar3 (c : Char) : GoStr :=
  if c = '\\' then ['\\'] else if c = '"' then ['"']
  else if c = '\n' then ['\n'] else if c = '\r' then ['\\', 'r']
  else if c = '\t' then ['\\', 't'] else [c]

/-- After undoing `\\`, `\"`, `\n` and `\r`. -/
def unChar4 (c : Char) : GoStr :=
  if c = '\\' then ['\\'] else if c = '"' then ['"']
  else if c = '\n' then ['\n'] else if c = '\r' then ['\r']
  else if c = '\t' then ['\\', 't'] else [c]

/-- Strictly sorted key list in the `sort.Strings` order. -/
def strictSortedL : List GoStr → Bool
  | [] => true
  | [_] => true
  | a :: b :: rest => lexLt a b && strictSortedL (b :: rest)

/-- Strictly sorted (by the `sort.Strings` order) association list with
distinct keys: the canonical listing of a Go map. -/
def strictSortedKeys : List (GoStr × GoStr) → Bool
  | [] => true
  | [_] => true
  | p :: q :: rest => lexLt p.1 q.1 && strictSortedKeys (q :: rest)

/-! ### Character-level bridge lemmas -/

theorem char_le_toNat (a b : Char) : (a ≤ b) ↔ a.toNat ≤ b.toNat := by
  rw [Char.le_def, UInt32.le_def, BitVec.le_def]
  rfl

theorem char_eq_toNat (a b : Char) : (a = b) ↔ a.toNat = b.toNat := by
  constructor
  · intro h; rw [h]
  · intro h
    exact Char.ext (UInt32.ext h)

theorem uint32_le_toNat (a b : UInt32) : (a ≤ b) ↔ a.toNat ≤ b.toNat := by
  rw [UInt32.le_def, BitVec.le_def]
  rfl

/-- The character-class facts used throughout: an env-name character is not
whitespace and not one of the delimiter characters of the env-file format. -/
theorem isEnvChar_not_special (c : Char) (h : isEnvChar c = true) :
    goIsSpace c = false ∧ c ≠ '=' ∧ c ≠ '#' ∧ c ≠ '\n' := by
  simp only [isEnvChar, Bool.or_eq_true, Bool.and_eq_true, decide_eq_true_eq,
    char_le_toNat, char_eq_toNat,
    show ('A').toNat = 65 from rfl, show ('Z').toNat = 90 from rfl,
    show ('a').toNat = 97 from rfl, show ('z').toNat = 122 from rfl,
    show ('0').toNat = 48 from rfl, show ('9').toNat = 57 from rfl,
    show ('_').toNat = 95 from rfl] at h
  simp only [goIsSpace, Bool.or_eq_false_iff, Bool.and_eq_false_iff,
    decide_eq_false_iff_not, char_eq_toNat, char_le_toNat, ne_eq, not_le,
    show (' ').toNat = 32 from rfl, show ('\t').toNat = 9 from rfl,
    show ('\n').toNat = 10 from rfl, show ('\x0b').toNat = 11 from rfl,
    show ('\x0c').toNat = 12 from rfl, show ('\r').toNat = 13 from rfl,
    show (Char.ofNat 0x85).toNat = 0x85 from rfl,
    show (Char.ofNat 0xA0).toNat = 0xA0 from rfl,
    show (Char.ofNat 0x1680).toNat = 0x1680 from rfl,
    show (Char.ofNat 0x2000).toNat = 0x2000 from rfl,
    show (Char.ofNat 0x200A).toNat = 0x200A from rfl,
    show (Char.ofNat 0x2028).toNat = 0x2028 from rfl,
    show (Char.ofNat 0x2029).toNat = 0x2029 from rfl,
    show (Char.ofNat 0x202F).toNat = 0x202F from rfl,
    show (Char.ofNat 0x205F).toNat = 0x205F from rfl,
    show (Char.ofNat 0x3000).toNat = 0x3000 from rfl,
    show ('=').toNat = 61 from rfl, show ('#').toNat = 35 from rfl]
  omega

/-! ### C8 — validator characterizations -/

theorem isSSMPathChar_utf8Size (c : Char) (h : isSSMPathChar c = true) :
    c.utf8Size = 1 := by
  have hle : c.val ≤ 0x7F := by
    rw [uint32_le_toNat]
    simp only [isSSMPathChar, Bool.or_eq_true, Bool.and_eq_true, decide_eq_true_eq,
      char_le_toNat, char_eq_toNat,
      show ('A').toNat = 65 from rfl, show ('Z').toNat = 90 from rfl,
      show ('a').toNat = 97 from rfl, show ('z').toNat = 122 from rfl,
      show ('0').toNat = 48 from rfl, show ('9').toNat = 57 from rfl,
      show ('-').toNat = 45 from rfl, show ('_').toNat = 95 from rfl,
      show ('.').toNat = 46 from rfl, show ('/').toNat = 47 from rfl] at h
    have h1 : c.val.toNat = c.toNat := rfl
    have h2 : (0x7F : UInt32).toNat = 127 := rfl
    rw [h1, h2]
    omega
  rw [Char.utf8Size]
  simp [hle]

theorem isAzureNameChar_utf8Size (c : Char) (h : isAzureNameChar c = true) :
    c.utf8Size = 1 := by
  apply isSSMPathChar_utf8Size
  simp only [isAzureNameChar, Bool.or_eq_true, Bool.and_eq_true, decide_eq_true_eq] at h
  simp only [isSSMPathChar, Bool.or_eq_true, Bool.and_eq_true, decide_eq_true_eq]
  tauto

theorem goLen_eq_length_of_ascii (s : GoStr) (f : Char → Bool)
    (hf : ∀ c, f c = true → c.utf8Size = 1) (h : s.all f = true) :
    goLen s = s.length := by
  induction s with
  | nil => rfl
  | cons c rest ih =>
    simp only [List.all_cons, Bool.and_eq_true] at h
    simp only [goLen, List.map_cons, List.sum_cons, List.length_cons] at *
    rw [hf c h.1, ih h.2]
    omega

theorem specPathChar_eq_isSSMPathChar (c : Char) :
    (('A' ≤ c && c ≤ 'Z') || ('a' ≤ c && c ≤ 'z') || ('0' ≤ c && c ≤ '9') ||
      c = '/' || c = '_' || c = '.' || c = '-') = isSSMPathChar c := by
  rw [Bool.eq_iff_iff]
  simp only [isSSMPathChar, Bool.or_eq_true]
  tauto

theorem envFirstChar_eq (c : Char) :
    (!('0' ≤ c && c ≤ '9') && isEnvChar c) =
      (('A' ≤ c && c ≤ 'Z') || ('a' ≤ c && c ≤ 'z') || c = '_') := by
  rw [Bool.eq_iff_iff]
  simp only [Bool.and_eq_true, Bool.or_eq_true, Bool.not_eq_true',
    Bool.and_eq_false_iff, isEnvChar, decide_eq_true_eq, decide_eq_false_iff_not,
    char_le_toNat, char_eq_toNat, not_le,
    show ('A').toNat = 65 from rfl, show ('Z').toNat = 90 from rfl,
    show ('a').toNat = 97 from rfl, show ('z').toNat = 122 from rfl,
    show ('0').toNat = 48 from rfl, show ('9').toNat = 57 from rfl,
    show ('_').toNat = 95 from rfl]
  omega

theorem validateEnvVarName_eq_spec (s : GoStr) :
    validateEnvVarName s = specEnvVarNameOk s := by
  cases s with
  | nil => rfl
  | cons c rest =>
    show ((!('0' ≤ c && c ≤ '9') && isEnvChar c) && rest.all isEnvChar) =
      ((('A' ≤ c && c ≤ 'Z') || ('a' ≤ c && c ≤ 'z') || c = '_') &&
        rest.all isEnvChar)
    rw [envFirstChar_eq]

theorem validateAzureSecretName_eq_spec (s : GoStr) :
    validateAzureSecretName s = specAzureSecretNameOk s := by
  show ((!s.isEmpty && decide (goLen s ≤ 127)) && s.all isAzureNameChar) =
    ((decide (1 ≤ s.length) && decide (s.length ≤ 127)) && s.all isAzureNameChar)
  cases hall : s.all isAzureNameChar with
  | true =>
    have hlen := goLen_eq_length_of_ascii s isAzureNameChar isAzureNameChar_utf8Size hall
    rw [hlen]
    cases s with
    | nil => rfl
    | cons c rest =>
      have h1 : (c :: rest).isEmpty = false := rfl
      have h2 : decide (1 ≤ (c :: rest).length) = true := by
        simp [List.length_cons]
      rw [h1, h2]
      rfl
  | false =>
    simp only [Bool.and_false]

theorem validateSSMPath_eq_spec (s : GoStr) :
    validateSSMPath s = (specSSMPathOk s && !(containsDotDot s)) := by
  have hchar : s.all (fun c =>
      ('A' ≤ c && c ≤ 'Z') || ('a' ≤ c && c ≤ 'z') || ('0' ≤ c && c ≤ '9') ||
        c = '/' || c = '_' || c = '.' || c = '-') = s.all isSSMPathChar := by
    congr 1
    funext c
    exact specPathChar_eq_isSSMPathChar c
  cases hall : s.all isSSMPathChar with
  | true =>
    have hlen := goLen_eq_length_of_ascii s isSSMPathChar isSSMPathChar_utf8Size hall
    simp only [validateSSMPath, specSSMPathOk, hchar, hall, hlen, Bool.and_true,
      Bool.true_and]
    cases s with
    | nil => rfl
    | cons c rest =>
      simp only [List.isEmpty_cons, Bool.not_false, Bool.true_and]
      cases h1 : decide ((c :: rest).head? = some '/') <;>
        cases h2 : containsDotDot (c :: rest) <;>
          cases h3 : decide ((c :: rest).length ≤ 2048) <;> rfl
  | false =>
    simp only [validateSSMPath, specSSMPathOk, hchar, hall, Bool.and_false,
      Bool.false_and, Bool.and_self]

/-- C8 counterexample: `/a..b` starts with `/`, uses only allowed characters
and is short, yet `validateSSMPath` rejects it (the path-traversal check),
so the claimed iff is false as stated. -/
theorem validateSSMPath_dotdot_cex :
    validateSSMPath ("/a..b".data) = false ∧ specSSMPathOk ("/a..b".data) = true := by
  constructor
  · rfl
  · rfl

/-- C8 (amended): path-style validation succeeds iff the string starts with
`/`, contains only characters in `[A-Za-z0-9/_.-]`, contains no `..`
substring, and has length at most 2048; name-style validation succeeds iff
the string has 1 to 127 characters all in `[A-Za-z0-9-]`; local-name
validation succeeds iff the string matches `^[A-Za-z_][A-Za-z0-9_]*$`. -/
theorem validators_match_spec (s : GoStr) :
    validateSSMPath s = (specSSMPathOk s && !(containsDotDot s)) ∧
    validateAzureSecretName s = specAzureSecretNameOk s ∧
    validateEnvVarName s = specEnvVarNameOk s :=
  ⟨validateSSMPath_eq_spec s, validateAzureSecretName_eq_spec s,
    validateEnvVarName_eq_spec s⟩

/-! ### C5 — bulk push issues exactly the locally-present mapped entries -/

theorem pushParameters_filterMap_char (envVars : List (GoStr × GoStr))
    (pm : ParameterMap) :
    pushParameters envVars pm =
      (pm.filter (fun p => (mapLookup envVars p.1).isSome)).map
        (fun p => RemoteCall.put p.2 (mapLookupD envVars p.1)) := by
  induction pm with
  | nil => rfl
  | cons p rest ih =>
    cases h : mapLookup envVars p.1 with
    | none =>
      simp [pushParameters, List.filterMap_cons, List.filter_cons, h,
        mapLookupD] at *
      exact ih
    | some v =>
      simp [pushParameters, List.filterMap_cons, List.filter_cons, h,
        mapLookupD] at *
      exact ih

theorem pushParameters_mem_iff (envVars : List (GoStr × GoStr))
    (pm : ParameterMap) (identifier v : GoStr) :
    RemoteCall.put identifier v ∈ pushParameters envVars pm ↔
      ∃ name, (name, identifier) ∈ pm ∧ mapLookup envVars name = some v := by
  simp only [pushParameters, List.mem_filterMap, Option.map_eq_some',
    RemoteCall.put.injEq]
  constructor
  · rintro ⟨p, hp, w, hw, hid, hv⟩
    refine ⟨p.1, ?_, ?_⟩
    · have : p = (p.1, identifier) := by
        cases p
        simp_all
      rw [← this]
      exact hp
    · rw [hw, hv]
  · rintro ⟨name, hmem, hlook⟩
    exact ⟨(name, identifier), hmem, v, hlook, rfl, rfl⟩

/-- C5: the sequence of store calls issued by a bulk push is exactly the
mapped entries whose env-var name is present in the local snapshot, each
storing the local value at the mapped identifier; entries absent locally
produce no store call. -/
theorem pushParameters_exactly_present (envVars : List (GoStr × GoStr))
    (pm : ParameterMap) :
    (pushParameters envVars pm =
      (pm.filter (fun p => (mapLookup envVars p.1).isSome)).map
        (fun p => RemoteCall.put p.2 (mapLookupD envVars p.1))) ∧
    (∀ identifier v, RemoteCall.put identifier v ∈ pushParameters envVars pm ↔
      ∃ name, (name, identifier) ∈ pm ∧ mapLookup envVars name = some v) :=
  ⟨pushParameters_filterMap_char envVars pm,
    fun identifier v => pushParameters_mem_iff envVars pm identifier v⟩

/-! ### C2 — sync difference classification -/

theorem diffFor_key (localEnvVars ssmEnvVars : List (GoStr × GoStr))
    (p : GoStr × GoStr) (d : Difference)
    (h : diffFor localEnvVars ssmEnvVars p = some d) : d.Key = p.1 := by
  unfold diffFor at h
  cases hl : mapLookup localEnvVars p.1 <;>
    cases hs : mapLookup ssmEnvVars p.1 <;>
      simp [hl, hs] at h
  · rw [← h]
  · rw [← h.2]

theorem diffFor_isSome_iff (localEnvVars ssmEnvVars : List (GoStr × GoStr))
    (p : GoStr × GoStr) :
    (∃ d, diffFor localEnvVars ssmEnvVars p = some d) ↔
      ((mapLookup localEnvVars p.1 = none ∧ mapLookup ssmEnvVars p.1 ≠ none) ∨
        (∃ lv sv, mapLookup localEnvVars p.1 = some lv ∧
          mapLookup ssmEnvVars p.1 = some sv ∧ lv ≠ sv)) := by
  unfold diffFor
  cases hl : mapLookup localEnvVars p.1 <;>
    cases hs : mapLookup ssmEnvVars p.1 <;>
      simp [hl, hs]

theorem diffFor_local_absent (localEnvVars ssmEnvVars : List (GoStr × GoStr))
    (p : GoStr × GoStr) (d : Difference)
    (h : diffFor localEnvVars ssmEnvVars p = some d)
    (habs : mapLookup localEnvVars p.1 = none) : d.LocalVal = [] := by
  unfold diffFor at h
  rw [habs] at h
  cases hs : mapLookup ssmEnvVars p.1 <;> simp [hs] at h
  rw [← h]

/-- C2: for a mapping entry `(name, identifier)`, a difference keyed at
`name` is produced iff either local lacks `name` while remote has it, or
both have it with unequal values; and when local lacks `name` the record
carries the empty-string local-absent sentinel.  (When local has `name` and
remote lacks it, or both agree, no difference keyed at `name` exists.) -/
theorem syncDifferenceClassification (pm : ParameterMap)
    (localEnvVars ssmEnvVars : List (GoStr × GoStr)) (name identifier : GoStr)
    (hmem : (name, identifier) ∈ pm) :
    ((∃ d ∈ computeDifferences pm localEnvVars ssmEnvVars, d.Key = name) ↔
      ((mapLookup localEnvVars name = none ∧ mapLookup ssmEnvVars name ≠ none) ∨
        (∃ lv sv, mapLookup localEnvVars name = some lv ∧
          mapLookup ssmEnvVars name = some sv ∧ lv ≠ sv))) ∧
    (∀ d ∈ computeDifferences pm localEnvVars ssmEnvVars, d.Key = name →
      mapLookup localEnvVars name = none → d.LocalVal = []) := by
  constructor
  · constructor
    · rintro ⟨d, hd, hkey⟩
      rw [computeDifferences, List.mem_filterMap] at hd
      obtain ⟨p, -, hp⟩ := hd
      have hk := diffFor_key localEnvVars ssmEnvVars p d hp
      have hpname : p.1 = name := by rw [← hk, hkey]
      rw [← hpname]
      exact (diffFor_isSome_iff localEnvVars ssmEnvVars p).mp ⟨d, hp⟩
    · intro hcond
      have : ∃ d, diffFor localEnvVars ssmEnvVars (name, identifier) = some d :=
        (diffFor_isSome_iff localEnvVars ssmEnvVars (name, identifier)).mpr hcond
      obtain ⟨d, hd⟩ := this
      refine ⟨d, ?_, diffFor_key _ _ _ _ hd⟩
      rw [computeDifferences, List.mem_filterMap]
      exact ⟨(name, identifier), hmem, hd⟩
  · intro d hd hkey habs
    rw [computeDifferences, List.mem_filterMap] at hd
    obtain ⟨p, -, hp⟩ := hd
    have hk := diffFor_key localEnvVars ssmEnvVars p d hp
    have hpname : p.1 = name := by rw [← hk, hkey]
    rw [← hpname] at habs
    exact diffFor_local_absent localEnvVars ssmEnvVars p d hp habs

/-- C2 witness: mapping `A ↦ /a`; local lacks `A`, remote has it with value
`x`: a difference keyed `A` is produced with the absent sentinel, and the
classification iff holds at this instance. -/
theorem syncDifferenceClassification_witness :
    ((∃ d ∈ computeDifferences [(['A'], ['/', 'a'])] [] [(['A'], ['x'])],
        d.Key = ['A']) ↔
      ((mapLookup [] ['A'] = none ∧ mapLookup [(['A'], ['x'])] ['A'] ≠ none) ∨
        (∃ lv sv, mapLookup [] ['A'] = some lv ∧
          mapLookup [(['A'], ['x'])] ['A'] = some sv ∧ lv ≠ sv))) ∧
    (∀ d ∈ computeDifferences [(['A'], ['/', 'a'])] [] [(['A'], ['x'])],
      d.Key = ['A'] → mapLookup [] ['A'] = none → d.LocalVal = []) :=
  syncDifferenceClassification [(['A'], ['/', 'a'])] [] [(['A'], ['x'])]
    ['A'] ['/', 'a'] (by simp)

/-! ### C3 — interactive selection protocol -/

/-- C3: stepping the prompt loop with the accepted-so-far list `acc` at the
current difference `d`: a `y`/`yes` answer (after trimming and lowercasing)
selects `d` and advances; `n`/`no` skips it and advances; `a`/`all`
terminates immediately selecting `acc` plus `d` plus every not-yet-visited
difference; `c`/`cancel` terminates immediately returning exactly `acc`;
any other answer re-prompts the same difference, consuming only the input;
and an exhausted difference list returns the accepted ones.
`promptForUpdates` runs this loop with an empty accumulator. -/
theorem promptProtocol (acc : List Difference) (d : Difference)
    (rest : List Difference) (inps : List GoStr) :
    (∀ diffs inputs, promptForUpdates diffs inputs = promptLoop [] diffs inputs) ∧
    (∀ i, goToLower (trimSpace i) = ['y'] ∨ goToLower (trimSpace i) = ['y', 'e', 's'] →
      promptLoop acc (d :: rest) (i :: inps) = promptLoop (acc ++ [d]) rest inps) ∧
    (∀ i, goToLower (trimSpace i) = ['n'] ∨ goToLower (trimSpace i) = ['n', 'o'] →
      promptLoop acc (d :: rest) (i :: inps) = promptLoop acc rest inps) ∧
    (∀ i, goToLower (trimSpace i) = ['a'] ∨ goToLower (trimSpace i) = ['a', 'l', 'l'] →
      promptLoop acc (d :: rest) (i :: inps) = some (acc ++ d :: rest)) ∧
    (∀ i, goToLower (trimSpace i) = ['c'] ∨
        goToLower (trimSpace i) = ['c', 'a', 'n', 'c', 'e', 'l'] →
      promptLoop acc (d :: rest) (i :: inps) = some acc) ∧
    (∀ i, goToLower (trimSpace i) ∉
        ([['y'], ['y', 'e', 's'], ['n'], ['n', 'o'], ['a'], ['a', 'l', 'l'],
          ['c'], ['c', 'a', 'n', 'c', 'e', 'l']] : List GoStr) →
      promptLoop acc (d :: rest) (i :: inps) = promptLoop acc (d :: rest) inps) ∧
    (promptLoop acc [] inps = some acc) := by
  refine ⟨fun _ _ => rfl, ?_, ?_, ?_, ?_, ?_, by simp [promptLoop]⟩
  · intro i h
    rcases h with h | h <;> simp [promptLoop, h]
  · intro i h
    rcases h with h | h <;> simp [promptLoop, h]
  · intro i h
    rcases h with h | h <;> simp [promptLoop, h]
  · intro i h
    rcases h with h | h <;> simp [promptLoop, h]
  · intro i h
    simp only [List.mem_cons, List.mem_singleton, not_or] at h
    obtain ⟨h1, h2, h3, h4, h5, h6, h7, h8, -⟩ := h
    simp [promptLoop, h1, h2, h3, h4, h5, h6, h7, h8]

/-- C3 witness: the protocol instantiated on a concrete difference, with
concrete answers, including a mixed-case padded `YES`, discharging every
hypothesis. -/
theorem promptProtocol_witness :
    (promptForUpdates [Difference.mk ['A'] [] ['x'] ['/', 'a'] true] [] =
      promptLoop [] [Difference.mk ['A'] [] ['x'] ['/', 'a'] true] []) ∧
    (promptLoop [] [Difference.mk ['A'] [] ['x'] ['/', 'a'] true]
        [[' ', 'Y', 'E', 'S', ' ']] =
      promptLoop ([] ++ [Difference.mk ['A'] [] ['x'] ['/', 'a'] true]) [] []) ∧
    (promptLoop [] [Difference.mk ['A'] [] ['x'] ['/', 'a'] true] [['n']] =
      promptLoop [] [] []) ∧
    (promptLoop [] [Difference.mk ['A'] [] ['x'] ['/', 'a'] true] [['a']] =
      some ([] ++ Difference.mk ['A'] [] ['x'] ['/', 'a'] true :: [])) ∧
    (promptLoop [] [Difference.mk ['A'] [] ['x'] ['/', 'a'] true] [['c']] =
      some []) ∧
    (promptLoop [] [Difference.mk ['A'] [] ['x'] ['/', 'a'] true] [['z']] =
      promptLoop [] [Difference.mk ['A'] [] ['x'] ['/', 'a'] true] []) ∧
    (promptLoop [] [] [] = some ([] : List Difference)) := by
  obtain ⟨p1, p2, p3, p4, p5, p6, p7⟩ :=
    promptProtocol [] (Difference.mk ['A'] [] ['x'] ['/', 'a'] true) [] []
  exact ⟨p1 [Difference.mk ['A'] [] ['x'] ['/', 'a'] true] [],
    p2 [' ', 'Y', 'E', 'S', ' '] (by decide),
    p3 ['n'] (by decide),
    p4 ['a'] (by decide),
    p5 ['c'] (by decide),
    p6 ['z'] (by decide),
    p7⟩

/-! ### C4 — empty difference set: report in sync, no file write -/

/-- C4: when the computed difference set is empty, sync reports in-sync and
terminates successfully without writing the env file (so the local file is
untouched). -/
theorem syncParameters_inSync (localEnvVars : List (GoStr × GoStr))
    (pm : ParameterMap) (remote : GoStr → Option GoStr) (force quotes : Bool)
    (inputs : List GoStr)
    (h : computeDifferences pm localEnvVars (fetchParameters remote pm) = []) :
    syncParameters localEnvVars pm remote force quotes inputs = .inSync ∧
    syncWrite (syncParameters localEnvVars pm remote force quotes inputs) = none := by
  constructor
  · simp [syncParameters, h]
  · simp [syncParameters, h, syncWrite]

/-- C4 witness: identical local and remote values for the single mapped key
yield an empty difference set, the in-sync outcome and no write. -/
theorem syncParameters_inSync_witness :
    computeDifferences [(['A'], ['/', 'a'])] [(['A'], ['1'])]
        (fetchParameters (fun _ => some ['1']) [(['A'], ['/', 'a'])]) = [] ∧
    syncParameters [(['A'], ['1'])] [(['A'], ['/', 'a'])]
        (fun _ => some ['1']) false false [] = .inSync ∧
    syncWrite (syncParameters [(['A'], ['1'])] [(['A'], ['/', 'a'])]
        (fun _ => some ['1']) false false []) = none :=
  ⟨by decide,
    syncParameters_inSync [(['A'], ['1'])] [(['A'], ['/', 'a'])]
      (fun _ => some ['1']) false false [] (by decide)⟩

/-! ### C6 — validation precedes any remote interaction -/

/-- C6: when the mapping file fails to parse or fails validation, none of
the three operations issues any remote call. -/
theorem validationBeforeRemote (raw : Option ParameterMap) (azure : Bool)
    (envText : GoStr) (remote : GoStr → Option GoStr) (force quotes : Bool)
    (inputs : List GoStr) (e : GoStr) (h : loadPM raw azure = .error e) :
    (pullMode raw azure remote quotes).1 = [] ∧
    (pushMode raw azure envText).1 = [] ∧
    (syncMode raw azure envText remote force quotes inputs).1 = [] := by
  unfold pullMode pushMode syncMode
  rw [h]
  exact ⟨rfl, rfl, rfl⟩

/-- C6 witness: an unparseable mapping file (AWS mode) aborts all three
operations before any remote call. -/
theorem validationBeforeRemote_witness :
    loadPM none false = .error ("failed to parse JSON".data) ∧
    (pullMode none false (fun _ => some ['1']) false).1 = [] ∧
    (pushMode none false ['A', '=', '1']).1 = [] ∧
    (syncMode none false ['A', '=', '1'] (fun _ => some ['1']) false false []).1 = [] :=
  ⟨rfl,
    validationBeforeRemote none false ['A', '=', '1'] (fun _ => some ['1'])
      false false [] ("failed to parse JSON".data) rfl⟩

/-! ### C9 — env-file writes use owner-only permissions -/

/-- C9: every file write performed by pull or sync passes permission bits
0600 to `os.OpenFile`, so the group and world bits (the low six bits) are
all zero. -/
theorem envFileWrites_owner_only (raw : Option ParameterMap) (azure : Bool)
    (remote : GoStr → Option GoStr) (quotes force : Bool) (envText : GoStr)
    (inputs : List GoStr) (fw : FileWrite) :
    ((pullMode raw azure remote quotes).2 = some fw →
      fw.perm = 0o600 ∧ fw.perm % 64 = 0) ∧
    (∀ out, (syncMode raw azure envText remote force quotes inputs).2 = some out →
      syncWrite out = some fw → fw.perm = 0o600 ∧ fw.perm % 64 = 0) := by
  have hperm : ∀ m q, (writeEnvFileEffect m q).perm = 0o600 := fun _ _ => rfl
  constructor
  · intro h
    unfold pullMode at h
    cases hl : loadPM raw azure with
    | error e => rw [hl] at h; exact absurd h (by simp)
    | ok pm =>
      rw [hl] at h
      simp only [Option.some.injEq] at h
      rw [← h, hperm]
      exact ⟨rfl, by decide⟩
  · intro out hout hw
    unfold syncMode at hout
    cases hl : loadPM raw azure with
    | error e => rw [hl] at hout; exact absurd hout (by simp)
    | ok pm =>
      rw [hl] at hout
      cases hr : readEnvFile envText with
      | error e => rw [hr] at hout; exact absurd hout (by simp)
      | ok localEnvVars =>
        rw [hr] at hout
        simp only [Option.some.injEq] at hout
        rw [← hout] at hw
        simp only [syncParameters] at hw
        split at hw
        · exact absurd hw (by simp [syncWrite])
        · split at hw
          · exact absurd hw (by simp [syncWrite])
          · split at hw
            · exact absurd hw (by simp [syncWrite])
            · simp only [syncWrite, Option.some.injEq] at hw
              rw [← hw, hperm]
              exact ⟨rfl, by decide⟩

/-- C9 witness: a concrete pull and a concrete forced sync, each producing a
write with permission bits 0600. -/
theorem envFileWrites_owner_only_witness :
    ((pullMode (some [(['A'], ['/', 'a'])]) false (fun _ => some ['1']) false).2 =
      some (FileWrite.mk 384 ['A', '=', '1', '\n']) ∧
      (FileWrite.mk 384 ['A', '=', '1', '\n']).perm = 0o600 ∧
      (FileWrite.mk 384 ['A', '=', '1', '\n']).perm % 64 = 0) ∧
    ((syncMode (some [(['A'], ['/', 'a'])]) false ['A', '=', '2', '\n']
        (fun _ => some ['1']) true false []).2 =
      some (SyncOutcome.wrote (FileWrite.mk 384 ['A', '=', '1', '\n']) 1) ∧
      syncWrite (SyncOutcome.wrote (FileWrite.mk 384 ['A', '=', '1', '\n']) 1) =
        some (FileWrite.mk 384 ['A', '=', '1', '\n'])) := by
  obtain ⟨p1, p2⟩ := envFileWrites_owner_only (some [(['A'], ['/', 'a'])]) false
    (fun _ => some ['1']) false true ['A', '=', '2', '\n'] []
    (FileWrite.mk 384 ['A', '=', '1', '\n'])
  refine ⟨⟨by decide, p1 (by decide)⟩, by decide, by decide⟩

/-! ### Shared lemmas about trimming, splitting and map updates -/

theorem dropWhile_eq_self_of_head (p : Char → Bool) (s : GoStr)
    (h : ∀ c, s.head? = some c → p c = false) : s.dropWhile p = s := by
  cases s with
  | nil => rfl
  | cons c t =>
    rw [List.dropWhile_cons, h c rfl]
    simp

theorem trimSpace_eq_self (s : GoStr)
    (h1 : ∀ c, s.head? = some c → goIsSpace c = false)
    (h2 : ∀ c, s.getLast? = some c → goIsSpace c = false) :
    trimSpace s = s := by
  unfold trimSpace
  rw [dropWhile_eq_self_of_head _ _ h1,
    dropWhile_eq_self_of_head _ _ (fun c hc => h2 c (by rwa [List.head?_reverse] at hc)),
    List.reverse_reverse]

theorem validateEnvVarName_parts (k : GoStr) (h : validateEnvVarName k = true) :
    k ≠ [] ∧ ∀ c ∈ k, isEnvChar c = true := by
  cases k with
  | nil => exact absurd h (by simp [validateEnvVarName])
  | cons c rest =>
    simp only [validateEnvVarName, Bool.and_eq_true] at h
    refine ⟨by simp, ?_⟩
    intro d hd
    rcases List.mem_cons.mp hd with hd | hd
    · rw [hd]; exact h.1.2
    · exact List.all_eq_true.mp h.2 d hd

theorem splitEq_append (k rest : GoStr) (h : '=' ∉ k) :
    splitEq (k ++ '=' :: rest) = some (k, rest) := by
  induction k with
  | nil => simp [splitEq]
  | cons c t ih =>
    have hc : ¬ c = '=' := fun e => h (e ▸ List.mem_cons_self c t)
    simp only [List.cons_append, splitEq, if_neg hc, List.append_eq]
    rw [ih (fun mm => h (List.mem_cons_of_mem c mm))]
    rfl

theorem splitEq_none_iff (l : GoStr) : splitEq l = none ↔ '=' ∉ l := by
  induction l with
  | nil => simp [splitEq]
  | cons c t ih =>
    by_cases hc : c = '='
    · subst hc
      simp [splitEq]
    · simp only [splitEq, if_neg hc, Option.map_eq_none', ih, List.mem_cons, not_or]
      constructor
      · intro hmem
        exact ⟨fun e => hc e.symm, hmem⟩
      · intro hmem
        exact hmem.2

theorem splitEq_isSome_of_mem (l : GoStr) (h : '=' ∈ l) : ∃ p, splitEq l = some p := by
  cases e : splitEq l with
  | none => exact absurd h ((splitEq_none_iff l).mp e)
  | some p => exact ⟨p, rfl⟩

theorem upsert_fresh (m : List (GoStr × GoStr)) (k v : GoStr)
    (h : ∀ p ∈ m, p.1 ≠ k) : upsert m k v = m ++ [(k, v)] := by
  induction m with
  | nil => rfl
  | cons p rest ih =>
    simp only [upsert, if_neg (h p (List.mem_cons_self p rest)), List.cons_append]
    rw [ih (fun q hq => h q (List.mem_cons_of_mem p hq))]

theorem goIsSpace_eq : goIsSpace '=' = false := rfl

theorem processLine_skip (m : List (GoStr × GoStr)) (i : Nat) (l : GoStr)
    (h : trimSpace l = [] ∨ (trimSpace l).head? = some '#') :
    processLine m i l = .ok m := by
  rcases h with h | h <;> simp [processLine, h]

theorem processLine_ok_of (m : List (GoStr × GoStr)) (i : Nat) (l : GoStr)
    (h : trimSpace l = [] ∨ (trimSpace l).head? = some '#' ∨ '=' ∈ trimSpace l) :
    ∃ m', processLine m i l = .ok m' := by
  rcases h with h | h | h
  · exact ⟨m, processLine_skip m i l (Or.inl h)⟩
  · exact ⟨m, processLine_skip m i l (Or.inr h)⟩
  · obtain ⟨p, hp⟩ := splitEq_isSome_of_mem _ h
    unfold processLine
    split
    · exact ⟨m, rfl⟩
    · rw [hp]
      exact ⟨_, rfl⟩

theorem processLine_bad (m : List (GoStr × GoStr)) (i : Nat) (bad : GoStr)
    (hbad1 : ¬ trimSpace bad = []) (hbad2 : ¬ (trimSpace bad).head? = some '#')
    (hbad3 : '=' ∉ trimSpace bad) :
    processLine m i bad = .error (i + 1, trimSpace bad) := by
  unfold processLine
  rw [(splitEq_none_iff (trimSpace bad)).mpr hbad3]
  simp [hbad1, hbad2]

/-- The line parse of a well-formed `KEY=VALUE` line: a valid env-var name,
then `=`, then a value that trimming and unquoting pass through. -/
theorem processLine_plain (m : List (GoStr × GoStr)) (i : Nat) (k v : GoStr)
    (hk : validateEnvVarName k = true) (hv : plainValue v = true) :
    processLine m i (k ++ '=' :: v) = .ok (upsert m k v) := by
  obtain ⟨hne, hall⟩ := validateEnvVarName_parts k hk
  obtain ⟨⟨hv1, hv2⟩, hv3⟩ :
      ((match v.head? with | none => true | some c => !goIsSpace c) = true ∧
        (match v.getLast? with | none => true | some c => !goIsSpace c) = true) ∧
      (!(v.length ≥ 2 &&
        ((v.head? = some '"' && v.getLast? = some '"') ||
          (v.head? = some '\'' && v.getLast? = some '\'')))) = true := by
    simpa only [plainValue, Bool.and_eq_true] using hv
  have hvhead : ∀ c, v.head? = some c → goIsSpace c = false := by
    intro c hc
    rw [hc] at hv1
    simpa using hv1
  have hvlast : ∀ c, v.getLast? = some c → goIsSpace c = false := by
    intro c hc
    rw [hc] at hv2
    simpa using hv2
  have htrimv : trimSpace v = v := trimSpace_eq_self v hvhead hvlast
  have hkeq : '=' ∉ k := by
    intro hmem
    have := (isEnvChar_not_special '=' (hall '=' hmem)).2.1
    exact this rfl
  have htrimk : trimSpace k = k := by
    apply trimSpace_eq_self
    · intro c hc
      have : c ∈ k := by
        cases k with
        | nil => simp at hc
        | cons c0 t =>
          simp only [List.head?_cons, Option.some.injEq] at hc
          rw [← hc]
          exact List.mem_cons_self c0 t
      exact (isEnvChar_not_special c (hall c this)).1
    · intro c hc
      have : c ∈ k := List.mem_of_mem_getLast? hc
      exact (isEnvChar_not_special c (hall c this)).1
  have htrimline : trimSpace (k ++ '=' :: v) = k ++ '=' :: v := by
    apply trimSpace_eq_self
    · intro c hc
      cases k with
      | nil => exact absurd rfl hne
      | cons c0 t =>
        simp only [List.cons_append, List.head?_cons, Option.some.injEq] at hc
        rw [← hc]
        exact (isEnvChar_not_special c0 (hall c0 (List.mem_cons_self c0 t))).1
    · intro c hc
      cases hvv : v with
      | nil =>
        subst hvv
        have : ('=' : Char) = c := by
          have h2 : (k ++ ['=']).getLast? = some '=' := List.getLast?_concat k
          rw [h2] at hc
          exact Option.some.inj hc
        rw [← this]
        exact goIsSpace_eq
      | cons c0 t =>
        subst hvv
        have h1 : (k ++ '=' :: c0 :: t).getLast? = ('=' :: c0 :: t).getLast? :=
          List.getLast?_append_of_ne_nil k (by simp)
        have h2 : ('=' :: c0 :: t).getLast? = (c0 :: t).getLast? :=
          List.getLast?_append_of_ne_nil ['='] (by simp)
        rw [h1, h2] at hc
        exact hvlast c hc
  have hcondfalse :
      (decide (k ++ '=' :: v = []) || decide ((k ++ '=' :: v).head? = some '#')) = false := by
    cases k with
    | nil => exact absurd rfl hne
    | cons c0 t =>
      have hc0 : ¬ c0 = '#' :=
        (isEnvChar_not_special c0 (hall c0 (List.mem_cons_self c0 t))).2.2.1
      simp [hc0]
  have huq : unquoteValue v = v := by
    unfold unquoteValue
    rw [Bool.not_eq_true'] at hv3
    simp only [hv3, Bool.false_eq_true, if_false]
  unfold processLine
  rw [htrimline]
  simp only [hcondfalse, Bool.false_eq_true, if_false]
  rw [splitEq_append k v hkeq]
  show Except.ok (upsert m (trimSpace k) (unquoteValue (trimSpace v))) =
    Except.ok (upsert m k v)
  rw [htrimk, htrimv, huq]

theorem parseLinesAux_cons (m : List (GoStr × GoStr)) (i : Nat) (l : GoStr)
    (ls : List GoStr) :
    parseLinesAux m i (l :: ls) =
      match processLine m i l with
      | .error e => .error e
      | .ok m' => parseLinesAux m' (i + 1) ls := rfl

theorem parseLinesAux_error (pre : List GoStr) (bad : GoStr) (post : List GoStr)
    (m : List (GoStr × GoStr)) (i : Nat)
    (hpre : ∀ l ∈ pre,
      trimSpace l = [] ∨ (trimSpace l).head? = some '#' ∨ '=' ∈ trimSpace l)
    (hbad1 : ¬ trimSpace bad = []) (hbad2 : ¬ (trimSpace bad).head? = some '#')
    (hbad3 : '=' ∉ trimSpace bad) :
    parseLinesAux m i (pre ++ bad :: post) =
      .error (i + pre.length + 1, trimSpace bad) := by
  induction pre generalizing m i with
  | nil =>
    rw [List.nil_append, parseLinesAux_cons,
      processLine_bad m i bad hbad1 hbad2 hbad3]
    rfl
  | cons l rest ih =>
    obtain ⟨m', hm'⟩ := processLine_ok_of m i l (hpre l (List.mem_cons_self l rest))
    rw [List.cons_append, parseLinesAux_cons, hm']
    show parseLinesAux m' (i + 1) (rest ++ bad :: post) = _
    rw [ih m' (i + 1) (fun q hq => hpre q (List.mem_cons_of_mem l hq))]
    have : i + 1 + rest.length + 1 = i + (l :: rest).length + 1 := by
      simp only [List.length_cons]
      omega
    rw [this]

/-! ### C7 — malformed-line error reporting -/

/-- C7 counterexample: the line `A=b=c` contains two `=` characters, yet
parsing succeeds (the code splits at the first `=` only), contradicting the
claim that every non-skipped line must contain exactly one `=` or parsing
fails. -/
theorem readEnvFile_two_eq_cex :
    readEnvFile ['A', '=', 'b', '=', 'c'] = .ok [(['A'], ['b', '=', 'c'])] := rfl

/-- C7 (amended): blank lines and lines whose first non-space character is
`#` are skipped; every other line must contain at least one `=`, the first
of which delimits trimmed key from trimmed value; a line with no `=` makes
parsing fail reporting that line's 1-based number (earlier lines being
skippable or containing an `=`). -/
theorem readEnvFile_malformed_line (text : GoStr) (pre : List GoStr)
    (bad : GoStr) (post : List GoStr)
    (hsplit : splitOnNl text = pre ++ bad :: post)
    (hpre : ∀ l ∈ pre,
      trimSpace l = [] ∨ (trimSpace l).head? = some '#' ∨ '=' ∈ trimSpace l)
    (hbad1 : ¬ trimSpace bad = []) (hbad2 : ¬ (trimSpace bad).head? = some '#')
    (hbad3 : '=' ∉ trimSpace bad) :
    readEnvFile text = .error (pre.length + 1, trimSpace bad) := by
  unfold readEnvFile
  rw [hsplit, parseLinesAux_error pre bad post [] 0 hpre hbad1 hbad2 hbad3]
  have : 0 + pre.length + 1 = pre.length + 1 := by omega
  rw [this]

/-- C7 witness: the spec's own example, `FOOBAR` with no `=` on line 2
after a well-formed first line, fails reporting line 2. -/
theorem readEnvFile_malformed_line_witness :
    splitOnNl ("A=1\nFOOBAR\n".data) =
      [['A', '=', '1']] ++ "FOOBAR".data :: [[]] ∧
    readEnvFile ("A=1\nFOOBAR\n".data) = .error (2, "FOOBAR".data) :=
  ⟨by decide,
    readEnvFile_malformed_line ("A=1\nFOOBAR\n".data) [['A', '=', '1']]
      ("FOOBAR".data) [[]] (by decide) (by decide) (by decide) (by decide)
      (by decide)⟩

/-! ### C10 — duplicate keys: last occurrence wins -/

theorem mapLookup_upsert_self (m : List (GoStr × GoStr)) (k v : GoStr) :
    mapLookup (upsert m k v) k = some v := by
  induction m with
  | nil => simp [upsert, mapLookup]
  | cons p rest ih =>
    by_cases hp : p.1 = k
    · simp [upsert, hp, mapLookup]
    · simp [upsert, hp, mapLookup, ih]

theorem mapLookup_upsert_ne (m : List (GoStr × GoStr)) (k v key : GoStr)
    (h : ¬ k = key) : mapLookup (upsert m k v) key = mapLookup m key := by
  induction m with
  | nil =>
    show (if k = key then some v else mapLookup [] key) = none
    rw [if_neg h]
    rfl
  | cons p rest ih =>
    by_cases hp : p.1 = k
    · show mapLookup (if p.1 = k then (k, v) :: rest else p :: upsert rest k v) key = _
      rw [if_pos hp]
      show (if k = key then some v else mapLookup rest key) =
        (if p.1 = key then some p.2 else mapLookup rest key)
      rw [if_neg h, if_neg (by rw [hp]; exact h)]
    · show mapLookup (if p.1 = k then (k, v) :: rest else p :: upsert rest k v) key = _
      rw [if_neg hp]
      show (if p.1 = key then some p.2 else mapLookup (upsert rest k v) key) =
        (if p.1 = key then some p.2 else mapLookup rest key)
      rw [ih]

/-- On a line that is blank, a comment, or contains an `=`, one iteration of
the `readEnvFile` loop succeeds and applies exactly the line's binding. -/
theorem processLine_eq_binding (m : List (GoStr × GoStr)) (i : Nat) (l : GoStr)
    (h : trimSpace l = [] ∨ (trimSpace l).head? = some '#' ∨ '=' ∈ trimSpace l) :
    processLine m i l = .ok (match lineBinding l with
      | none => m
      | some p => upsert m p.1 p.2) := by
  cases hc : (decide (trimSpace l = []) || decide ((trimSpace l).head? = some '#')) with
  | true =>
    unfold processLine lineBinding
    rw [if_pos hc, if_pos hc]
  | false =>
    have hmem : '=' ∈ trimSpace l := by
      rcases h with h | h | h
      · rw [h] at hc
        simp at hc
      · rw [h] at hc
        simp at hc
      · exact h
    obtain ⟨⟨k0, r0⟩, hp⟩ := splitEq_isSome_of_mem _ hmem
    unfold processLine lineBinding
    simp only [hc, Bool.false_eq_true, if_false, hp]

/-- A run of the `readEnvFile` line loop over lines that are each blank, a
comment, or contain an `=` succeeds and equals the left fold of the lines'
bindings over the Go map. -/
theorem parseLinesAux_fold (lines : List GoStr) :
    ∀ (acc : List (GoStr × GoStr)) (i : Nat),
    (∀ l ∈ lines, trimSpace l = [] ∨ (trimSpace l).head? = some '#' ∨ '=' ∈ trimSpace l) →
    parseLinesAux acc i lines =
      .ok ((lines.filterMap lineBinding).foldl (fun m p => upsert m p.1 p.2) acc) := by
  induction lines with
  | nil =>
    intro acc i _
    rfl
  | cons l ls ih =>
    intro acc i h
    rw [parseLinesAux_cons,
      processLine_eq_binding acc i l (h l (List.mem_cons_self l ls))]
    show parseLinesAux
      (match lineBinding l with | none => acc | some p => upsert acc p.1 p.2)
      (i + 1) ls = _
    cases hb : lineBinding l with
    | none =>
      simp only [hb, List.filterMap_cons]
      exact ih acc (i + 1) (fun q hq => h q (List.mem_cons_of_mem l hq))
    | some p =>
      simp only [hb, List.filterMap_cons, List.foldl_cons]
      exact ih (upsert acc p.1 p.2) (i + 1) (fun q hq => h q (List.mem_cons_of_mem l hq))

/-- Looking up a key after left-folding a binding list into a Go map yields
the value of the last binding of that key, falling back to the initial
map. -/
theorem mapLookup_foldl_upsert (bs : List (GoStr × GoStr)) :
    ∀ (acc : List (GoStr × GoStr)) (key : GoStr),
    mapLookup (bs.foldl (fun m p => upsert m p.1 p.2) acc) key =
      (match lastBinding key bs with
        | some v => some v
        | none => mapLookup acc key) := by
  induction bs with
  | nil =>
    intro acc key
    rfl
  | cons p rest ih =>
    intro acc key
    rw [List.foldl_cons, ih (upsert acc p.1 p.2) key]
    cases hl : lastBinding key rest with
    | some v =>
      show some v = (match lastBinding key (p :: rest) with
        | some w => some w
        | none => mapLookup acc key)
      rw [show lastBinding key (p :: rest) = some v from by
        simp [lastBinding, hl]]
    | none =>
      show mapLookup (upsert acc p.1 p.2) key =
        (match lastBinding key (p :: rest) with
          | some w => some w
          | none => mapLookup acc key)
      by_cases hp : p.1 = key
      · rw [show lastBinding key (p :: rest) = some p.2 from by
          simp [lastBinding, hl, hp]]
        show mapLookup (upsert acc p.1 p.2) key = some p.2
        rw [hp]
        exact mapLookup_upsert_self acc key p.2
      · rw [show lastBinding key (p :: rest) = none from by
          simp [lastBinding, hl, hp]]
        show mapLookup (upsert acc p.1 p.2) key = mapLookup acc key
        exact mapLookup_upsert_ne acc p.1 p.2 key hp

/-- C10: for every env-file text each of whose lines is blank, a comment,
or contains an `=` (the proviso under which parsing succeeds), parsing
succeeds and the resulting snapshot maps every key to the value of the last
line in file order that binds it; in particular, when two or more lines
bind the same trimmed key, the earlier bindings are silently discarded
rather than reported as an error. -/
theorem readEnvFile_duplicate_last_wins (text : GoStr)
    (hok : ∀ l ∈ splitOnNl text,
      trimSpace l = [] ∨ (trimSpace l).head? = some '#' ∨ '=' ∈ trimSpace l) :
    ∃ envVars, readEnvFile text = .ok envVars ∧
      ∀ key, mapLookup envVars key =
        lastBinding key ((splitOnNl text).filterMap lineBinding) := by
  refine ⟨((splitOnNl text).filterMap lineBinding).foldl
    (fun m p => upsert m p.1 p.2) [], ?_, ?_⟩
  · unfold readEnvFile
    exact parseLinesAux_fold (splitOnNl text) [] 0 hok
  · intro key
    rw [mapLookup_foldl_upsert ((splitOnNl text).filterMap lineBinding) [] key]
    cases h : lastBinding key ((splitOnNl text).filterMap lineBinding) with
    | some v => rfl
    | none => rfl

/-- C10 witness: a file with two `A` lines among other bindings (including
a non-identifier key `1X`) and a comment: parsing succeeds, every key maps
to its last binding, and `A` concretely resolves to the later value `2`. -/
theorem readEnvFile_duplicate_last_wins_witness :
    (∀ l ∈ splitOnNl ("B=0\n1X=a\nA=1\n# note\nA=2\n".data),
      trimSpace l = [] ∨ (trimSpace l).head? = some '#' ∨ '=' ∈ trimSpace l) ∧
    (∃ envVars, readEnvFile ("B=0\n1X=a\nA=1\n# note\nA=2\n".data) = .ok envVars ∧
      ∀ key, mapLookup envVars key =
        lastBinding key
          ((splitOnNl ("B=0\n1X=a\nA=1\n# note\nA=2\n".data)).filterMap lineBinding)) ∧
    readEnvFile ("B=0\n1X=a\nA=1\n# note\nA=2\n".data) =
      .ok [(['B'], ['0']), (['1', 'X'], ['a']), (['A'], ['2'])] :=
  ⟨by decide,
    readEnvFile_duplicate_last_wins ("B=0\n1X=a\nA=1\n# note\nA=2\n".data)
      (by decide),
    by rfl⟩

/-! ### C1 — replaceAll unfolding lemmas -/

theorem replaceAll_nil (pat rep : GoStr) : replaceAll pat rep [] = [] := by
  rw [replaceAll]

theorem ra1_cons (a : Char) (rep : GoStr) (c : Char) (s : GoStr) :
    replaceAll [a] rep (c :: s) =
      if c = a then rep ++ replaceAll [a] rep s else c :: replaceAll [a] rep s := by
  by_cases h : c = a
  · subst h
    rw [replaceAll, dif_pos ⟨by simp, ⟨s, rfl⟩⟩, if_pos rfl]
    rfl
  · rw [replaceAll, dif_neg, if_neg h]
    rintro ⟨-, t, ht⟩
    simp only [List.cons_append, List.nil_append, List.cons.injEq] at ht
    exact h ht.1.symm

theorem ra1_hit (a : Char) (rep : GoStr) (s : GoStr) :
    replaceAll [a] rep (a :: s) = rep ++ replaceAll [a] rep s := by
  rw [ra1_cons, if_pos rfl]

theorem ra1_skip (a : Char) (rep : GoStr) (x : Char) (s : GoStr) (hx : ¬ x = a) :
    replaceAll [a] rep (x :: s) = x :: replaceAll [a] rep s := by
  rw [ra1_cons, if_neg hx]

theorem ra2_match (a b : Char) (rep : GoStr) (s : GoStr) :
    replaceAll [a, b] rep (a :: b :: s) = rep ++ replaceAll [a, b] rep s := by
  rw [replaceAll, dif_pos ⟨by simp, ⟨s, rfl⟩⟩]
  rfl

theorem ra2_head_ne (a b c : Char) (rep : GoStr) (s : GoStr) (h : ¬ c = a) :
    replaceAll [a, b] rep (c :: s) = c :: replaceAll [a, b] rep s := by
  rw [replaceAll, dif_neg]
  rintro ⟨-, t, ht⟩
  simp only [List.cons_append, List.nil_append, List.cons.injEq] at ht
  exact h ht.1.symm

theorem ra2_second_ne (a b c d : Char) (rep : GoStr) (s : GoStr) (h : ¬ d = b) :
    replaceAll [a, b] rep (c :: d :: s) = c :: replaceAll [a, b] rep (d :: s) := by
  rw [replaceAll, dif_neg]
  rintro ⟨-, t, ht⟩
  simp only [List.cons_append, List.nil_append, List.cons.injEq] at ht
  exact h ht.2.1.symm

theorem ra2_single (a b : Char) (rep : GoStr) (c : Char) :
    replaceAll [a, b] rep [c] = [c] := by
  rw [replaceAll, dif_neg]
  · rw [replaceAll_nil]
  · rintro ⟨-, t, ht⟩
    have := congrArg List.length ht
    simp at this

theorem expandWith_id (v : GoStr) : expandWith (fun c => [c]) v = v := by
  induction v with
  | nil => rfl
  | cons c s ih => simp [expandWith, ih]

/-! ### C1 — the escape chain is a character-wise expansion -/

theorem esc_stage1 (v : GoStr) :
    replaceAll ['\\'] ['\\', '\\'] v = expandWith escChar1 v := by
  induction v with
  | nil => rw [replaceAll_nil]; rfl
  | cons c s ih =>
    by_cases h : c = '\\'
    · subst h
      rw [ra1_hit, ih]
      simp [expandWith, escChar1]
    · rw [ra1_skip _ _ _ _ h, ih]
      simp [expandWith, escChar1, h]

theorem esc_stage2 (v : GoStr) :
    replaceAll ['"'] ['\\', '"'] (expandWith escChar1 v) = expandWith escChar2 v := by
  induction v with
  | nil => rw [show expandWith escChar1 [] = [] from rfl, replaceAll_nil]; rfl
  | cons c s ih =>
    by_cases h1 : c = '\\'
    · subst h1
      show replaceAll ['"'] ['\\', '"'] ('\\' :: '\\' :: expandWith escChar1 s) = _
      rw [ra1_skip _ _ _ _ (by decide), ra1_skip _ _ _ _ (by decide), ih]
      simp [expandWith, escChar2]
    · by_cases h2 : c = '"'
      · subst h2
        show replaceAll ['"'] ['\\', '"'] ('"' :: expandWith escChar1 s) = _
        rw [ra1_hit, ih]
        simp [expandWith, escChar2]
      · have hblock : expandWith escChar1 (c :: s) = c :: expandWith escChar1 s := by
          simp [expandWith, escChar1, h1]
        rw [hblock, ra1_skip _ _ _ _ h2, ih]
        simp [expandWith, escChar2, h1, h2]

theorem esc_stage3 (v : GoStr) :
    replaceAll ['\n'] ['\\', 'n'] (expandWith escChar2 v) = expandWith escChar3 v := by
  induction v with
  | nil => rw [show expandWith escChar2 [] = [] from rfl, replaceAll_nil]; rfl
  | cons c s ih =>
    by_cases h1 : c = '\\'
    · subst h1
      show replaceAll ['\n'] ['\\', 'n'] ('\\' :: '\\' :: expandWith escChar2 s) = _
      rw [ra1_skip _ _ _ _ (by decide), ra1_skip _ _ _ _ (by decide), ih]
      simp [expandWith, escChar3]
    · by_cases h2 : c = '"'
      · subst h2
        show replaceAll ['\n'] ['\\', 'n'] ('\\' :: '"' :: expandWith escChar2 s) = _
        rw [ra1_skip _ _ _ _ (by decide), ra1_skip _ _ _ _ (by decide), ih]
        simp [expandWith, escChar3]
      · by_cases h3 : c = '\n'
        · subst h3
          show replaceAll ['\n'] ['\\', 'n'] ('\n' :: expandWith escChar2 s) = _
          rw [ra1_hit, ih]
          simp [expandWith, escChar3]
        · have hblock : expandWith escChar2 (c :: s) = c :: expandWith escChar2 s := by
            simp [expandWith, escChar2, h1, h2]
          rw [hblock, ra1_skip _ _ _ _ h3, ih]
          simp [expandWith, escChar3, h1, h2, h3]

theorem esc_stage4 (v : GoStr) :
    replaceAll ['\r'] ['\\', 'r'] (expandWith escChar3 v) = expandWith escChar4 v := by
  induction v with
  | nil => rw [show expandWith escChar3 [] = [] from rfl, replaceAll_nil]; rfl
  | cons c s ih =>
    by_cases h1 : c = '\\'
    · subst h1
      show replaceAll ['\r'] ['\\', 'r'] ('\\' :: '\\' :: expandWith escChar3 s) = _
      rw [ra1_skip _ _ _ _ (by decide), ra1_skip _ _ _ _ (by decide), ih]
      simp [expandWith, escChar4]
    · by_cases h2 : c = '"'
      · subst h2
        show replaceAll ['\r'] ['\\', 'r'] ('\\' :: '"' :: expandWith escChar3 s) = _
        rw [ra1_skip _ _ _ _ (by decide), ra1_skip _ _ _ _ (by decide), ih]
        simp [expandWith, escChar4]
      · by_cases h3 : c = '\n'
        · subst h3
          show replaceAll ['\r'] ['\\', 'r'] ('\\' :: 'n' :: expandWith escChar3 s) = _
          rw [ra1_skip _ _ _ _ (by decide), ra1_skip _ _ _ _ (by decide), ih]
          simp [expandWith, escChar4]
        · by_cases h4 : c = '\r'
          · subst h4
            show replaceAll ['\r'] ['\\', 'r'] ('\r' :: expandWith escChar3 s) = _
            rw [ra1_hit, ih]
            simp [expandWith, escChar4]
          · have hblock : expandWith escChar3 (c :: s) = c :: expandWith escChar3 s := by
              simp [expandWith, escChar3, h1, h2, h3]
            rw [hblock, ra1_skip _ _ _ _ h4, ih]
            simp [expandWith, escChar4, h1, h2, h3, h4]

theorem esc_stage5 (v : GoStr) :
    replaceAll ['\t'] ['\\', 't'] (expandWith escChar4 v) = expandWith escChar v := by
  induction v with
  | nil => rw [show expandWith escChar4 [] = [] from rfl, replaceAll_nil]; rfl
  | cons c s ih =>
    by_cases h1 : c = '\\'
    · subst h1
      show replaceAll ['\t'] ['\\', 't'] ('\\' :: '\\' :: expandWith escChar4 s) = _
      rw [ra1_skip _ _ _ _ (by decide), ra1_skip _ _ _ _ (by decide), ih]
      simp [expandWith, escChar]
    · by_cases h2 : c = '"'
      · subst h2
        show replaceAll ['\t'] ['\\', 't'] ('\\' :: '"' :: expandWith escChar4 s) = _
        rw [ra1_skip _ _ _ _ (by decide), ra1_skip _ _ _ _ (by decide), ih]
        simp [expandWith, escChar]
      · by_cases h3 : c = '\n'
        · subst h3
          show replaceAll ['\t'] ['\\', 't'] ('\\' :: 'n' :: expandWith escChar4 s) = _
          rw [ra1_skip _ _ _ _ (by decide), ra1_skip _ _ _ _ (by decide), ih]
          simp [expandWith, escChar]
        · by_cases h4 : c = '\r'
          · subst h4
            show replaceAll ['\t'] ['\\', 't'] ('\\' :: 'r' :: expandWith escChar4 s) = _
            rw [ra1_skip _ _ _ _ (by decide), ra1_skip _ _ _ _ (by decide), ih]
            simp [expandWith, escChar]
          · by_cases h5 : c = '\t'
            · subst h5
              show replaceAll ['\t'] ['\\', 't'] ('\t' :: expandWith escChar4 s) = _
              rw [ra1_hit, ih]
              simp [expandWith, escChar]
            · have hblock : expandWith escChar4 (c :: s) = c :: expandWith escChar4 s := by
                simp [expandWith, escChar4, h1, h2, h3, h4]
              rw [hblock, ra1_skip _ _ _ _ h5, ih]
              simp [expandWith, escChar, h1, h2, h3, h4, h5]

theorem escapeValue_eq_expand (v : GoStr) : escapeValue v = expandWith escChar v := by
  show replaceAll ['\t'] ['\\', 't']
    (replaceAll ['\r'] ['\\', 'r']
      (replaceAll ['\n'] ['\\', 'n']
        (replaceAll ['"'] ['\\', '"']
          (replaceAll ['\\'] ['\\', '\\'] v)))) = expandWith escChar v
  rw [esc_stage1, esc_stage2, esc_stage3, esc_stage4, esc_stage5]

theorem newline_not_mem_escChar (c : Char) : '\n' ∉ escChar c := by
  unfold escChar
  by_cases h1 : c = '\\'
  · simp [h1]
  · by_cases h2 : c = '"'
    · simp [h1, h2]
    · by_cases h3 : c = '\n'
      · simp [h1, h2, h3]
      · by_cases h4 : c = '\r'
        · simp [h1, h2, h3, h4]
        · by_cases h5 : c = '\t'
          · simp [h1, h2, h3, h4, h5]
          · simp [h1, h2, h3, h4, h5]
            exact fun e => h3 e.symm

theorem newline_not_mem_escapeValue (v : GoStr) : '\n' ∉ escapeValue v := by
  rw [escapeValue_eq_expand]
  induction v with
  | nil => simp [expandWith]
  | cons c s ih =>
    simp only [expandWith, List.mem_append]
    rintro (h | h)
    · exact newline_not_mem_escChar c h
    · exact ih h

/-! ### C1 — the unescape chain inverts the escape chain stage by stage -/

theorem noBadEscape_tail (c : Char) (s : GoStr)
    (h : noBadEscape (c :: s) = true) : noBadEscape s = true := by
  cases s with
  | nil => rfl
  | cons d r =>
    simp only [noBadEscape, Bool.and_eq_true] at h
    exact h.2

theorem noBadEscape_second (d : Char) (s : GoStr)
    (h : noBadEscape ('\\' :: d :: s) = true) :
    ¬ d = 'n' ∧ ¬ d = 'r' ∧ ¬ d = 't' := by
  simp only [noBadEscape, Bool.and_eq_true, Bool.not_eq_true',
    Bool.and_eq_false_iff, Bool.or_eq_false_iff, decide_eq_false_iff_not] at h
  rcases h.1 with h1 | h1
  · exact absurd trivial h1
  · exact ⟨h1.1.1, h1.1.2, h1.2⟩

theorem unChar1_head (d : Char) : ∃ x t, unChar1 d = x :: t ∧ ¬ x = '"' := by
  by_cases h1 : d = '\\'
  · exact ⟨'\\', [], by simp [unChar1, h1], by decide⟩
  · by_cases h2 : d = '"'
    · exact ⟨'\\', ['"'], by simp [unChar1, h1, h2], by decide⟩
    · by_cases h3 : d = '\n'
      · exact ⟨'\\', ['n'], by simp [unChar1, h1, h2, h3], by decide⟩
      · by_cases h4 : d = '\r'
        · exact ⟨'\\', ['r'], by simp [unChar1, h1, h2, h3, h4], by decide⟩
        · by_cases h5 : d = '\t'
          · exact ⟨'\\', ['t'], by simp [unChar1, h1, h2, h3, h4, h5], by decide⟩
          · exact ⟨d, [], by simp [unChar1, h1, h2, h3, h4, h5], h2⟩

theorem unChar2_head (d : Char) (hd : ¬ d = 'n') :
    ∃ x t, unChar2 d = x :: t ∧ ¬ x = 'n' := by
  by_cases h1 : d = '\\'
  · exact ⟨'\\', [], by simp [unChar2, h1], by decide⟩
  · by_cases h2 : d = '"'
    · exact ⟨'"', [], by simp [unChar2, h1, h2], by decide⟩
    · by_cases h3 : d = '\n'
      · exact ⟨'\\', ['n'], by simp [unChar2, h1, h2, h3], by decide⟩
      · by_cases h4 : d = '\r'
        · exact ⟨'\\', ['r'], by simp [unChar2, h1, h2, h3, h4], by decide⟩
        · by_cases h5 : d = '\t'
          · exact ⟨'\\', ['t'], by simp [unChar2, h1, h2, h3, h4, h5], by decide⟩
          · exact ⟨d, [], by simp [unChar2, h1, h2, h3, h4, h5], hd⟩

theorem unChar3_head (d : Char) (hd : ¬ d = 'r') :
    ∃ x t, unChar3 d = x :: t ∧ ¬ x = 'r' := by
  by_cases h1 : d = '\\'
  · exact ⟨'\\', [], by simp [unChar3, h1], by decide⟩
  · by_cases h2 : d = '"'
    · exact ⟨'"', [], by simp [unChar3, h1, h2], by decide⟩
    · by_cases h3 : d = '\n'
      · exact ⟨'\n', [], by simp [unChar3, h1, h2, h3], by decide⟩
      · by_cases h4 : d = '\r'
        · exact ⟨'\\', ['r'], by simp [unChar3, h1, h2, h3, h4], by decide⟩
        · by_cases h5 : d = '\t'
          · exact ⟨'\\', ['t'], by simp [unChar3, h1, h2, h3, h4, h5], by decide⟩
          · exact ⟨d, [], by simp [unChar3, h1, h2, h3, h4, h5], hd⟩

theorem unChar4_head (d : Char) (hd : ¬ d = 't') :
    ∃ x t, unChar4 d = x :: t ∧ ¬ x = 't' := by
  by_cases h1 : d = '\\'
  · exact ⟨'\\', [], by simp [unChar4, h1], by decide⟩
  · by_cases h2 : d = '"'
    · exact ⟨'"', [], by simp [unChar4, h1, h2], by decide⟩
    · by_cases h3 : d = '\n'
      · exact ⟨'\n', [], by simp [unChar4, h1, h2, h3], by decide⟩
      · by_cases h4 : d = '\r'
        · exact ⟨'\r', [], by simp [unChar4, h1, h2, h3, h4], by decide⟩
        · by_cases h5 : d = '\t'
          · exact ⟨'\\', ['t'], by simp [unChar4, h1, h2, h3, h4, h5], by decide⟩
          · exact ⟨d, [], by simp [unChar4, h1, h2, h3, h4, h5], hd⟩

theorem un_stage1 (v : GoStr) :
    replaceAll ['\\', '\\'] ['\\'] (expandWith escChar v) = expandWith unChar1 v := by
  induction v with
  | nil => rw [show expandWith escChar [] = [] from rfl, replaceAll_nil]; rfl
  | cons c s ih =>
    by_cases h1 : c = '\\'
    · subst h1
      show replaceAll ['\\', '\\'] ['\\'] ('\\' :: '\\' :: expandWith escChar s) = _
      rw [ra2_match, ih]
      rfl
    · by_cases h2 : c = '"'
      · subst h2
        show replaceAll ['\\', '\\'] ['\\'] ('\\' :: '"' :: expandWith escChar s) = _
        rw [ra2_second_ne _ _ _ _ _ _ (by decide),
          ra2_head_ne _ _ _ _ _ (by decide), ih]
        rfl
      · by_cases h3 : c = '\n'
        · subst h3
          show replaceAll ['\\', '\\'] ['\\'] ('\\' :: 'n' :: expandWith escChar s) = _
          rw [ra2_second_ne _ _ _ _ _ _ (by decide),
            ra2_head_ne _ _ _ _ _ (by decide), ih]
          rfl
        · by_cases h4 : c = '\r'
          · subst h4
            show replaceAll ['\\', '\\'] ['\\'] ('\\' :: 'r' :: expandWith escChar s) = _
            rw [ra2_second_ne _ _ _ _ _ _ (by decide),
              ra2_head_ne _ _ _ _ _ (by decide), ih]
            rfl
          · by_cases h5 : c = '\t'
            · subst h5
              show replaceAll ['\\', '\\'] ['\\'] ('\\' :: 't' :: expandWith escChar s) = _
              rw [ra2_second_ne _ _ _ _ _ _ (by decide),
                ra2_head_ne _ _ _ _ _ (by decide), ih]
              rfl
            · have hblock : expandWith escChar (c :: s) = c :: expandWith escChar s := by
                simp [expandWith, escChar, h1, h2, h3, h4, h5]
              have hout : expandWith unChar1 (c :: s) = c :: expandWith unChar1 s := by
                simp [expandWith, unChar1, h1, h2, h3, h4, h5]
              rw [hblock, ra2_head_ne _ _ _ _ _ h1, ih, hout]

theorem un_stage2 (v : GoStr) :
    replaceAll ['\\', '"'] ['"'] (expandWith unChar1 v) = expandWith unChar2 v := by
  induction v with
  | nil => rw [show expandWith unChar1 [] = [] from rfl, replaceAll_nil]; rfl
  | cons c s ih =>
    by_cases h1 : c = '\\'
    · subst h1
      cases s with
      | nil =>
        show replaceAll ['\\', '"'] ['"'] ['\\'] = _
        rw [ra2_single]
        rfl
      | cons d s' =>
        obtain ⟨x, t, hxt, hx⟩ := unChar1_head d
        have hlist : expandWith unChar1 ('\\' :: d :: s') =
            '\\' :: (x :: (t ++ expandWith unChar1 s')) := by
          show unChar1 '\\' ++ (unChar1 d ++ expandWith unChar1 s') = _
          rw [hxt]
          rfl
        have hback : x :: (t ++ expandWith unChar1 s') = expandWith unChar1 (d :: s') := by
          show _ = unChar1 d ++ expandWith unChar1 s'
          rw [hxt]
          rfl
        rw [hlist, ra2_second_ne _ _ _ _ _ _ hx, hback, ih]
        rfl
    · by_cases h2 : c = '"'
      · subst h2
        show replaceAll ['\\', '"'] ['"'] ('\\' :: '"' :: expandWith unChar1 s) = _
        rw [ra2_match, ih]
        rfl
      · by_cases h3 : c = '\n'
        · subst h3
          show replaceAll ['\\', '"'] ['"'] ('\\' :: 'n' :: expandWith unChar1 s) = _
          rw [ra2_second_ne _ _ _ _ _ _ (by decide),
            ra2_head_ne _ _ _ _ _ (by decide), ih]
          rfl
        · by_cases h4 : c = '\r'
          · subst h4
            show replaceAll ['\\', '"'] ['"'] ('\\' :: 'r' :: expandWith unChar1 s) = _
            rw [ra2_second_ne _ _ _ _ _ _ (by decide),
              ra2_head_ne _ _ _ _ _ (by decide), ih]
            rfl
          · by_cases h5 : c = '\t'
            · subst h5
              show replaceAll ['\\', '"'] ['"'] ('\\' :: 't' :: expandWith unChar1 s) = _
              rw [ra2_second_ne _ _ _ _ _ _ (by decide),
                ra2_head_ne _ _ _ _ _ (by decide), ih]
              rfl
            · have hblock : expandWith unChar1 (c :: s) = c :: expandWith unChar1 s := by
                simp [expandWith, unChar1, h1, h2, h3, h4, h5]
              have hout : expandWith unChar2 (c :: s) = c :: expandWith unChar2 s := by
                simp [expandWith, unChar2, h1, h2, h3, h4, h5]
              rw [hblock, ra2_head_ne _ _ _ _ _ h1, ih, hout]

theorem un_stage3 (v : GoStr) (hv : noBadEscape v = true) :
    replaceAll ['\\', 'n'] ['\n'] (expandWith unChar2 v) = expandWith unChar3 v := by
  induction v with
  | nil => rw [show expandWith unChar2 [] = [] from rfl, replaceAll_nil]; rfl
  | cons c s ih =>
    have ihs := ih (noBadEscape_tail c s hv)
    by_cases h1 : c = '\\'
    · subst h1
      cases s with
      | nil =>
        show replaceAll ['\\', 'n'] ['\n'] ['\\'] = _
        rw [ra2_single]
        rfl
      | cons d s' =>
        obtain ⟨x, t, hxt, hx⟩ := unChar2_head d (noBadEscape_second d s' hv).1
        have hlist : expandWith unChar2 ('\\' :: d :: s') =
            '\\' :: (x :: (t ++ expandWith unChar2 s')) := by
          show unChar2 '\\' ++ (unChar2 d ++ expandWith unChar2 s') = _
          rw [hxt]
          rfl
        have hback : x :: (t ++ expandWith unChar2 s') = expandWith unChar2 (d :: s') := by
          show _ = unChar2 d ++ expandWith unChar2 s'
          rw [hxt]
          rfl
        rw [hlist, ra2_second_ne _ _ _ _ _ _ hx, hback, ihs]
        rfl
    · by_cases h2 : c = '"'
      · subst h2
        show replaceAll ['\\', 'n'] ['\n'] ('"' :: expandWith unChar2 s) = _
        rw [ra2_head_ne _ _ _ _ _ (by decide), ihs]
        rfl
      · by_cases h3 : c = '\n'
        · subst h3
          show replaceAll ['\\', 'n'] ['\n'] ('\\' :: 'n' :: expandWith unChar2 s) = _
          rw [ra2_match, ihs]
          rfl
        · by_cases h4 : c = '\r'
          · subst h4
            show replaceAll ['\\', 'n'] ['\n'] ('\\' :: 'r' :: expandWith unChar2 s) = _
            rw [ra2_second_ne _ _ _ _ _ _ (by decide),
              ra2_head_ne _ _ _ _ _ (by decide), ihs]
            rfl
          · by_cases h5 : c = '\t'
            · subst h5
              show replaceAll ['\\', 'n'] ['\n'] ('\\' :: 't' :: expandWith unChar2 s) = _
              rw [ra2_second_ne _ _ _ _ _ _ (by decide),
                ra2_head_ne _ _ _ _ _ (by decide), ihs]
              rfl
            · have hblock : expandWith unChar2 (c :: s) = c :: expandWith unChar2 s := by
                simp [expandWith, unChar2, h1, h2, h3, h4, h5]
              have hout : expandWith unChar3 (c :: s) = c :: expandWith unChar3 s := by
                simp [expandWith, unChar3, h1, h2, h3, h4, h5]
              rw [hblock, ra2_head_ne _ _ _ _ _ h1, ihs, hout]

theorem un_stage4 (v : GoStr) (hv : noBadEscape v = true) :
    replaceAll ['\\', 'r'] ['\r'] (expandWith unChar3 v) = expandWith unChar4 v := by
  induction v with
  | nil => rw [show expandWith unChar3 [] = [] from rfl, replaceAll_nil]; rfl
  | cons c s ih =>
    have ihs := ih (noBadEscape_tail c s hv)
    by_cases h1 : c = '\\'
    · subst h1
      cases s with
      | nil =>
        show replaceAll ['\\', 'r'] ['\r'] ['\\'] = _
        rw [ra2_single]
        rfl
      | cons d s' =>
        obtain ⟨x, t, hxt, hx⟩ := unChar3_head d (noBadEscape_second d s' hv).2.1
        have hlist : expandWith unChar3 ('\\' :: d :: s') =
            '\\' :: (x :: (t ++ expandWith unChar3 s')) := by
          show unChar3 '\\' ++ (unChar3 d ++ expandWith unChar3 s') = _
          rw [hxt]
          rfl
        have hback : x :: (t ++ expandWith unChar3 s') = expandWith unChar3 (d :: s') := by
          show _ = unChar3 d ++ expandWith unChar3 s'
          rw [hxt]
          rfl
        rw [hlist, ra2_second_ne _ _ _ _ _ _ hx, hback, ihs]
        rfl
    · by_cases h2 : c = '"'
      · subst h2
        show replaceAll ['\\', 'r'] ['\r'] ('"' :: expandWith unChar3 s) = _
        rw [ra2_head_ne _ _ _ _ _ (by decide), ihs]
        rfl
      · by_cases h3 : c = '\n'
        · subst h3
          show replaceAll ['\\', 'r'] ['\r'] ('\n' :: expandWith unChar3 s) = _
          rw [ra2_head_ne _ _ _ _ _ (by decide), ihs]
          rfl
        · by_cases h4 : c = '\r'
          · subst h4
            show replaceAll ['\\', 'r'] ['\r'] ('\\' :: 'r' :: expandWith unChar3 s) = _
            rw [ra2_match, ihs]
            rfl
          · by_cases h5 : c = '\t'
            · subst h5
              show replaceAll ['\\', 'r'] ['\r'] ('\\' :: 't' :: expandWith unChar3 s) = _
              rw [ra2_second_ne _ _ _ _ _ _ (by decide),
                ra2_head_ne _ _ _ _ _ (by decide), ihs]
              rfl
            · have hblock : expandWith unChar3 (c :: s) = c :: expandWith unChar3 s := by
                simp [expandWith, unChar3, h1, h2, h3, h4, h5]
              have hout : expandWith unChar4 (c :: s) = c :: expandWith unChar4 s := by
                simp [expandWith, unChar4, h1, h2, h3, h4, h5]
              rw [hblock, ra2_head_ne _ _ _ _ _ h1, ihs, hout]

theorem un_stage5 (v : GoStr) (hv : noBadEscape v = true) :
    replaceAll ['\\', 't'] ['\t'] (expandWith unChar4 v) = v := by
  induction v with
  | nil => rw [show expandWith unChar4 [] = [] from rfl, replaceAll_nil]
  | cons c s ih =>
    have ihs := ih (noBadEscape_tail c s hv)
    by_cases h1 : c = '\\'
    · subst h1
      cases s with
      | nil =>
        show replaceAll ['\\', 't'] ['\t'] ['\\'] = _
        rw [ra2_single]
      | cons d s' =>
        obtain ⟨x, t, hxt, hx⟩ := unChar4_head d (noBadEscape_second d s' hv).2.2
        have hlist : expandWith unChar4 ('\\' :: d :: s') =
            '\\' :: (x :: (t ++ expandWith unChar4 s')) := by
          show unChar4 '\\' ++ (unChar4 d ++ expandWith unChar4 s') = _
          rw [hxt]
          rfl
        have hback : x :: (t ++ expandWith unChar4 s') = expandWith unChar4 (d :: s') := by
          show _ = unChar4 d ++ expandWith unChar4 s'
          rw [hxt]
          rfl
        rw [hlist, ra2_second_ne _ _ _ _ _ _ hx, hback, ihs]
    · by_cases h2 : c = '"'
      · subst h2
        show replaceAll ['\\', 't'] ['\t'] ('"' :: expandWith unChar4 s) = _
        rw [ra2_head_ne _ _ _ _ _ (by decide), ihs]
      · by_cases h3 : c = '\n'
        · subst h3
          show replaceAll ['\\', 't'] ['\t'] ('\n' :: expandWith unChar4 s) = _
          rw [ra2_head_ne _ _ _ _ _ (by decide), ihs]
        · by_cases h4 : c = '\r'
          · subst h4
            show replaceAll ['\\', 't'] ['\t'] ('\r' :: expandWith unChar4 s) = _
            rw [ra2_head_ne _ _ _ _ _ (by decide), ihs]
          · by_cases h5 : c = '\t'
            · subst h5
              show replaceAll ['\\', 't'] ['\t'] ('\\' :: 't' :: expandWith unChar4 s) = _
              rw [ra2_match, ihs]
              rfl
            · have hblock : expandWith unChar4 (c :: s) = c :: expandWith unChar4 s := by
                simp [expandWith, unChar4, h1, h2, h3, h4, h5]
              rw [hblock, ra2_head_ne _ _ _ _ _ h1, ihs]

/-- On values free of backslash-letter ambiguities, the unescape chain of
`readEnvFile` inverts `escapeValue`. -/
theorem unescapeValue_escapeValue (v : GoStr) (hv : noBadEscape v = true) :
    unescapeValue (escapeValue v) = v := by
  show replaceAll ['\\', 't'] ['\t']
    (replaceAll ['\\', 'r'] ['\r']
      (replaceAll ['\\', 'n'] ['\n']
        (replaceAll ['\\', '"'] ['"']
          (replaceAll ['\\', '\\'] ['\\'] (escapeValue v))))) = v
  rw [escapeValue_eq_expand, un_stage1, un_stage2, un_stage3 v hv,
    un_stage4 v hv, un_stage5 v hv]

/-! ### C1 — parsing a serialized line -/

theorem goIsSpace_quote : goIsSpace '"' = false := rfl

/-- The line parse of a serialized `KEY="escaped"` line recovers the original
value, for values free of backslash-letter ambiguities. -/
theorem processLine_quoted (m : List (GoStr × GoStr)) (i : Nat) (k v : GoStr)
    (hk : validateEnvVarName k = true) (hv : noBadEscape v = true) :
    processLine m i (k ++ '=' :: ('"' :: (escapeValue v ++ ['"']))) =
      .ok (upsert m k v) := by
  obtain ⟨hne, hall⟩ := validateEnvVarName_parts k hk
  have hkeq : '=' ∉ k := by
    intro hmem
    exact (isEnvChar_not_special '=' (hall '=' hmem)).2.1 rfl
  have htrimk : trimSpace k = k := by
    apply trimSpace_eq_self
    · intro c hc
      have : c ∈ k := by
        cases k with
        | nil => simp at hc
        | cons c0 t =>
          simp only [List.head?_cons, Option.some.injEq] at hc
          rw [← hc]
          exact List.mem_cons_self c0 t
      exact (isEnvChar_not_special c (hall c this)).1
    · intro c hc
      exact (isEnvChar_not_special c (hall c (List.mem_of_mem_getLast? hc))).1
  have hVlast : ('"' :: (escapeValue v ++ ['"'])).getLast? = some '"' := by
    have he : ('"' :: (escapeValue v ++ ['"'])) = ('"' :: escapeValue v) ++ ['"'] := by
      simp
    rw [he, List.getLast?_concat]
  have htrimV : trimSpace ('"' :: (escapeValue v ++ ['"'])) =
      '"' :: (escapeValue v ++ ['"']) := by
    apply trimSpace_eq_self
    · intro c hc
      rw [List.head?_cons] at hc
      rw [← Option.some.inj hc]
      exact goIsSpace_quote
    · intro c hc
      rw [hVlast] at hc
      rw [← Option.some.inj hc]
      exact goIsSpace_quote
  have htrimline : trimSpace (k ++ '=' :: ('"' :: (escapeValue v ++ ['"']))) =
      k ++ '=' :: ('"' :: (escapeValue v ++ ['"'])) := by
    apply trimSpace_eq_self
    · intro c hc
      cases k with
      | nil => exact absurd rfl hne
      | cons c0 t =>
        simp only [List.cons_append, List.head?_cons, Option.some.injEq] at hc
        rw [← hc]
        exact (isEnvChar_not_special c0 (hall c0 (List.mem_cons_self c0 t))).1
    · intro c hc
      have he : k ++ '=' :: ('"' :: (escapeValue v ++ ['"'])) =
          (k ++ '=' :: ('"' :: escapeValue v)) ++ ['"'] := by simp
      rw [he, List.getLast?_concat] at hc
      rw [← Option.some.inj hc]
      exact goIsSpace_quote
  have hcondfalse :
      (decide (k ++ '=' :: ('"' :: (escapeValue v ++ ['"'])) = []) ||
        decide ((k ++ '=' :: ('"' :: (escapeValue v ++ ['"']))).head? = some '#')) =
        false := by
    cases k with
    | nil => exact absurd rfl hne
    | cons c0 t =>
      have hc0 : ¬ c0 = '#' :=
        (isEnvChar_not_special c0 (hall c0 (List.mem_cons_self c0 t))).2.2.1
      simp [hc0]
  have huq : unquoteValue ('"' :: (escapeValue v ++ ['"'])) = v := by
    unfold unquoteValue
    have hlen : ('"' :: (escapeValue v ++ ['"'])).length ≥ 2 := by
      simp only [List.length_cons, List.length_append, List.length_singleton]
      omega
    have hcond : (decide (('"' :: (escapeValue v ++ ['"'])).length ≥ 2) &&
        ((decide (('"' :: (escapeValue v ++ ['"'])).head? = some '"') &&
          decide (('"' :: (escapeValue v ++ ['"'])).getLast? = some '"')) ||
          (decide (('"' :: (escapeValue v ++ ['"'])).head? = some '\'') &&
            decide (('"' :: (escapeValue v ++ ['"'])).getLast? = some '\'')))) =
        true := by
      simp only [hVlast, List.head?_cons]
      simp [hlen]
    rw [if_pos hcond]
    have hdrop : (('"' :: (escapeValue v ++ ['"'])).drop 1).dropLast =
        escapeValue v := by
      show (escapeValue v ++ ['"']).dropLast = escapeValue v
      exact List.dropLast_concat
    rw [hdrop]
    exact unescapeValue_escapeValue v hv
  unfold processLine
  rw [htrimline]
  simp only [hcondfalse, Bool.false_eq_true, if_false]
  rw [splitEq_append k _ hkeq]
  show Except.ok (upsert m (trimSpace k)
    (unquoteValue (trimSpace ('"' :: (escapeValue v ++ ['"']))))) = _
  rw [htrimk, htrimV, huq]

/-! ### C1 — splitting the serialized file into lines -/

theorem splitOnNl_append (l rest : GoStr) (h : '\n' ∉ l) :
    splitOnNl (l ++ '\n' :: rest) = l :: splitOnNl rest := by
  induction l with
  | nil => simp [splitOnNl]
  | cons c t ih =>
    have hc : ¬ c = '\n' := fun e => h (e ▸ List.mem_cons_self c t)
    have ih' := ih (fun mm => h (List.mem_cons_of_mem c mm))
    show splitOnNl (c :: (t ++ '\n' :: rest)) = (c :: t) :: splitOnNl rest
    simp only [splitOnNl, if_neg hc, ih']

theorem splitOnNl_flatten (bodies : List GoStr) (h : ∀ l ∈ bodies, '\n' ∉ l) :
    splitOnNl ((bodies.map (fun l => l ++ ['\n'])).flatten) = bodies ++ [[]] := by
  induction bodies with
  | nil => rfl
  | cons l ls ih =>
    simp only [List.map_cons, List.flatten_cons]
    have hassoc : (l ++ ['\n']) ++ (ls.map (fun l => l ++ ['\n'])).flatten =
        l ++ '\n' :: (ls.map (fun l => l ++ ['\n'])).flatten := by
      simp
    rw [hassoc, splitOnNl_append _ _ (h l (List.mem_cons_self l ls)),
      ih (fun q hq => h q (List.mem_cons_of_mem l hq))]
    rfl

/-! ### C1 — the sort of an already strictly sorted key list is the identity -/

theorem lexLt_le (a b : GoStr) (h : lexLt a b = true) : lexLe a b = true := by
  induction a generalizing b with
  | nil => cases b <;> rfl
  | cons x s ih =>
    cases b with
    | nil => simp [lexLt] at h
    | cons y t =>
      by_cases hxy : x < y
      · simp [lexLe, hxy]
      · by_cases hyx : y < x
        · simp [lexLt, hxy, hyx] at h
        · simp only [lexLt, if_neg hxy, if_neg hyx] at h
          simp only [lexLe, if_neg hxy, if_neg hyx]
          exact ih t h

theorem lexLt_irrefl (a : GoStr) : lexLt a a = false := by
  induction a with
  | nil => rfl
  | cons x s ih => simp [lexLt, lt_irrefl, ih]

theorem lexLt_ne (a b : GoStr) (h : lexLt a b = true) : a ≠ b := by
  intro e
  rw [e, lexLt_irrefl] at h
  exact absurd h (by simp)

theorem lexLt_trans (a b c : GoStr) (h1 : lexLt a b = true)
    (h2 : lexLt b c = true) : lexLt a c = true := by
  induction a generalizing b c with
  | nil =>
    cases c with
    | nil =>
      cases b with
      | nil => exact h2
      | cons y t => simp [lexLt] at h2
    | cons z u => rfl
  | cons x s ih =>
    cases b with
    | nil => simp [lexLt] at h1
    | cons y t =>
      cases c with
      | nil => simp [lexLt] at h2
      | cons z u =>
        by_cases hxy : x < y
        · by_cases hyz : y < z
          · simp [lexLt, lt_trans hxy hyz]
          · by_cases hzy : z < y
            · simp [lexLt, hyz, hzy] at h2
            · have hyzeq : y = z := le_antisymm (not_lt.mp hzy) (not_lt.mp hyz)
              subst hyzeq
              simp [lexLt, hxy]
        · by_cases hyx : y < x
          · simp [lexLt, hxy, hyx] at h1
          · have hxyeq : x = y := le_antisymm (not_lt.mp hyx) (not_lt.mp hxy)
            subst hxyeq
            simp only [lexLt, if_neg hxy, if_neg hyx] at h1
            by_cases hxz : x < z
            · simp [lexLt, hxz]
            · by_cases hzx : z < x
              · simp [lexLt, hxz, hzx] at h2
              · have hxzeq : x = z := le_antisymm (not_lt.mp hzx) (not_lt.mp hxz)
                subst hxzeq
                simp only [lexLt, if_neg hxz, if_neg hzx] at h2 ⊢
                exact ih t u h1 h2

theorem strictSortedL_tail (k : GoStr) (ks : List GoStr)
    (h : strictSortedL (k :: ks) = true) : strictSortedL ks = true := by
  cases ks with
  | nil => rfl
  | cons k2 r =>
    simp only [strictSortedL, Bool.and_eq_true] at h
    exact h.2

theorem sortStrings_sorted_id (ks : List GoStr) (h : strictSortedL ks = true) :
    sortStrings ks = ks := by
  induction ks with
  | nil => rfl
  | cons k rest ih =>
    show insertSorted k (sortStrings rest) = k :: rest
    rw [ih (strictSortedL_tail k rest h)]
    cases rest with
    | nil => rfl
    | cons k2 r2 =>
      have hlt : lexLt k k2 = true := by
        simp only [strictSortedL, Bool.and_eq_true] at h
        exact h.1
      simp [insertSorted, lexLt_le _ _ hlt]

theorem strictSortedKeys_eq (m : List (GoStr × GoStr)) :
    strictSortedKeys m = strictSortedL (m.map Prod.fst) := by
  induction m with
  | nil => rfl
  | cons p rest ih =>
    cases rest with
    | nil => rfl
    | cons q r =>
      show (lexLt p.1 q.1 && strictSortedKeys (q :: r)) =
        strictSortedL (p.1 :: q.1 :: List.map Prod.fst r)
      rw [ih]
      rfl

theorem strictSortedKeys_tail (p : GoStr × GoStr) (rest : List (GoStr × GoStr))
    (h : strictSortedKeys (p :: rest) = true) : strictSortedKeys rest = true := by
  cases rest with
  | nil => rfl
  | cons q r =>
    simp only [strictSortedKeys, Bool.and_eq_true] at h
    exact h.2

theorem strictSortedKeys_head_lt (p : GoStr × GoStr) (rest : List (GoStr × GoStr))
    (h : strictSortedKeys (p :: rest) = true) :
    ∀ q ∈ rest, lexLt p.1 q.1 = true := by
  induction rest generalizing p with
  | nil => intro q hq; simp at hq
  | cons q2 r ih =>
    intro q hq
    have h1 : lexLt p.1 q2.1 = true := by
      simp only [strictSortedKeys, Bool.and_eq_true] at h
      exact h.1
    rcases List.mem_cons.mp hq with hq | hq
    · rw [hq]
      exact h1
    · have htail : strictSortedKeys (q2 :: r) = true := strictSortedKeys_tail p _ h
      exact lexLt_trans p.1 q2.1 q.1 h1 (ih q2 htail q hq)

/-! ### C1 — serialization of a canonical (sorted, distinct-key) snapshot -/

theorem map_keys_lookup (f : GoStr → GoStr → GoStr) (m : List (GoStr × GoStr))
    (hs : strictSortedKeys m = true) :
    (m.map Prod.fst).map (fun key => f key (mapLookupD m key)) =
      m.map (fun p => f p.1 p.2) := by
  induction m with
  | nil => rfl
  | cons p rest ih =>
    simp only [List.map_cons]
    congr 1
    · have : mapLookupD (p :: rest) p.1 = p.2 := by simp [mapLookupD, mapLookup]
      rw [this]
    · have hlt := strictSortedKeys_head_lt p rest hs
      have hcongr : (rest.map Prod.fst).map (fun key => f key (mapLookupD (p :: rest) key)) =
          (rest.map Prod.fst).map (fun key => f key (mapLookupD rest key)) := by
        apply List.map_congr_left
        intro k hk
        obtain ⟨q, hq, hqk⟩ := List.mem_map.mp hk
        have hne : ¬ p.1 = k := by
          intro e
          exact lexLt_ne p.1 q.1 (hlt q hq) (by rw [e, hqk])
        have hlook : mapLookupD (p :: rest) k = mapLookupD rest k := by
          simp [mapLookupD, mapLookup, hne]
        rw [hlook]
      rw [hcongr, ih (strictSortedKeys_tail p rest hs)]

theorem writeEnvFile_true_eq (m : List (GoStr × GoStr))
    (hs : strictSortedKeys m = true) :
    writeEnvFile m true =
      ((m.map (fun p => p.1 ++ '=' :: ('"' :: (escapeValue p.2 ++ ['"'])))).map
        (fun l => l ++ ['\n'])).flatten := by
  simp only [writeEnvFile]
  rw [sortStrings_sorted_id _ (by rw [← strictSortedKeys_eq]; exact hs)]
  show (List.map (fun key =>
      key ++ '=' :: (('"' :: escapeValue (mapLookupD m key)) ++ ['"']) ++ ['\n'])
      (List.map Prod.fst m)).flatten = _
  refine congrArg List.flatten ?_
  have h1 := map_keys_lookup
    (fun key val => key ++ '=' :: (('"' :: escapeValue val) ++ ['"']) ++ ['\n']) m hs
  refine h1.trans ?_
  rw [List.map_map]
  apply List.map_congr_left
  intro p _
  simp [Function.comp]

/-! ### C1 — parsing back the full serialized file -/

theorem parseLinesAux_bodies (m : List (GoStr × GoStr)) :
    ∀ (acc : List (GoStr × GoStr)) (i : Nat),
    (∀ p ∈ m, validateEnvVarName p.1 = true) →
    (∀ p ∈ m, noBadEscape p.2 = true) →
    strictSortedKeys m = true →
    (∀ p ∈ m, ∀ q ∈ acc, ¬ q.1 = p.1) →
    parseLinesAux acc i
      ((m.map (fun p => p.1 ++ '=' :: ('"' :: (escapeValue p.2 ++ ['"'])))) ++ [[]]) =
      .ok (acc ++ m) := by
  induction m with
  | nil =>
    intro acc i _ _ _ _
    show parseLinesAux acc i [[]] = .ok (acc ++ [])
    rw [parseLinesAux_cons, processLine_skip acc i [] (Or.inl rfl)]
    show parseLinesAux acc (i + 1) [] = _
    rw [List.append_nil]
    rfl
  | cons p rest ih =>
    intro acc i hkeys hvals hsorted hfresh
    simp only [List.map_cons, List.cons_append]
    rw [parseLinesAux_cons,
      processLine_quoted acc i p.1 p.2 (hkeys p (List.mem_cons_self p rest))
        (hvals p (List.mem_cons_self p rest))]
    show parseLinesAux (upsert acc p.1 p.2) (i + 1) _ = _
    rw [upsert_fresh acc p.1 p.2
      (fun q hq => hfresh p (List.mem_cons_self p rest) q hq)]
    have hfresh' : ∀ r ∈ rest, ∀ q ∈ acc ++ [(p.1, p.2)], ¬ q.1 = r.1 := by
      intro r hr q hq
      rcases List.mem_append.mp hq with hq | hq
      · exact hfresh r (List.mem_cons_of_mem p hr) q hq
      · have hqp : q = (p.1, p.2) := by simpa using hq
        rw [hqp]
        exact lexLt_ne p.1 r.1 (strictSortedKeys_head_lt p rest hsorted r hr)
    rw [ih (acc ++ [(p.1, p.2)]) (i + 1)
      (fun r hr => hkeys r (List.mem_cons_of_mem p hr))
      (fun r hr => hvals r (List.mem_cons_of_mem p hr))
      (strictSortedKeys_tail p rest hsorted) hfresh']
    simp

theorem newline_not_mem_body (p : GoStr × GoStr)
    (hk : validateEnvVarName p.1 = true) :
    '\n' ∉ p.1 ++ '=' :: ('"' :: (escapeValue p.2 ++ ['"'])) := by
  obtain ⟨-, hall⟩ := validateEnvVarName_parts p.1 hk
  intro hmem
  rcases List.mem_append.mp hmem with h | h
  · exact (isEnvChar_not_special '\n' (hall '\n' h)).2.2.2 rfl
  · rcases List.mem_cons.mp h with h | h
    · exact absurd h (by decide)
    · rcases List.mem_cons.mp h with h | h
      · exact absurd h (by decide)
      · rcases List.mem_append.mp h with h | h
        · exact newline_not_mem_escapeValue p.2 h
        · simp at h

/-! ### C1 — the round-trip theorems -/

/-- C1 counterexample: the value consisting of a literal backslash followed
by the letter `n` (no null bytes, valid key) does not survive the round
trip: it comes back as a newline character, because the eager unescape
chain rewrites the escaped `\\` and then treats the freshly exposed `\n`
as a newline escape. -/
theorem roundtrip_backslash_n_cex :
    validateEnvVarName ['A'] = true ∧
    (∀ c ∈ (['\\', 'n'] : GoStr), ¬ c = Char.ofNat 0) ∧
    readEnvFile (writeEnvFile [(['A'], ['\\', 'n'])] true) =
      .ok [(['A'], ['\n'])] ∧
    (['\n'] : GoStr) ≠ ['\\', 'n'] := by
  refine ⟨by decide, by decide, ?_, by decide⟩
  have h1 : writeEnvFile [(['A'], ['\\', 'n'])] true =
      ['A', '=', '"', '\\', '\\', 'n', '"', '\n'] := by
    simp [writeEnvFile, sortStrings, insertSorted, mapLookupD, mapLookup,
      escapeValue, replaceAll]
  rw [h1]
  simp [readEnvFile, splitOnNl, parseLinesAux, processLine, trimSpace,
    goIsSpace, splitEq, unquoteValue, unescapeValue, replaceAll, upsert,
    Char.ofNat]

/-- C1 (amended): for every snapshot (listed in canonical form: keys
strictly sorted in the byte-lexicographic order used by the serializer,
hence distinct) whose keys are valid variable names and whose values
contain no null bytes and no literal backslash immediately followed by one
of the letters `n`, `r`, `t`, parsing the text produced by serializing with
`alwaysQuote` yields exactly the snapshot back. -/
theorem readEnvFile_writeEnvFile_roundtrip (m : List (GoStr × GoStr))
    (hkeys : ∀ p ∈ m, validateEnvVarName p.1 = true)
    (hnull : ∀ p ∈ m, ∀ c ∈ p.2, ¬ c = Char.ofNat 0)
    (hvals : ∀ p ∈ m, noBadEscape p.2 = true)
    (hsorted : strictSortedKeys m = true) :
    readEnvFile (writeEnvFile m true) = .ok m := by
  rw [writeEnvFile_true_eq m hsorted]
  show parseLinesAux [] 0 (splitOnNl _) = _
  rw [splitOnNl_flatten _ (by
    intro l hl
    obtain ⟨p, hp, hlp⟩ := List.mem_map.mp hl
    rw [← hlp]
    exact newline_not_mem_body p (hkeys p hp))]
  have h := parseLinesAux_bodies m [] 0 hkeys hvals hsorted
    (by intro p hp q hq; simp at hq)
  simpa using h

/-- C1 witness: a two-key snapshot with an exotic but unambiguous value
(tab, quote, backslash at the end) and a plain value round-trips. -/
theorem readEnvFile_writeEnvFile_roundtrip_witness :
    strictSortedKeys [(['A'], ['x', '"', '\t', '\\']), (['B'], ['y'])] = true ∧
    readEnvFile (writeEnvFile
      [(['A'], ['x', '"', '\t', '\\']), (['B'], ['y'])] true) =
      .ok [(['A'], ['x', '"', '\t', '\\']), (['B'], ['y'])] :=
  ⟨by decide,
    readEnvFile_writeEnvFile_roundtrip
      [(['A'], ['x', '"', '\t', '\\']), (['B'], ['y'])]
      (by decide) (by decide) (by decide) (by decide)⟩
